import Mathlib

/-!
Verification model of the autosqlite migration engine (autosqlite.go).

The Go source drives an embedded SQLite store through a narrow interface:
execute-statement, query, catalog introspection, plus filesystem calls
(stat/copy/rename/remove) and a cross-process advisory file lock.  This file
gives a shallow embedding of that program:

* a `Database` is the observable content of one SQLite file: its catalog
  (tables with their column metadata, plus indexes/triggers/views as
  name+definition pairs) and the row data of each table;
* a `Schema` is the caller-supplied DDL text together with the database it
  produces when executed against an empty store (the source treats schema
  text as a black box whose only meaning is that result; an execution error
  is `none`);
* the filesystem is a finite map from paths to databases, and every
  fallible external call of the source (lock acquisition, backup copy,
  cutover rename, lineage-record write, row iteration ending early in an
  error, as `database/sql` reports through `rows.Next`/`rows.Err`) has an
  explicit failure switch in `Env`;
* each function of the source (`Open`, `Migrate`, `MigrateToNewFile`,
  `SchemasEqual`, `MigrateTable`, `GetTables`, `GetColumns`,
  `FindCommonColumns`, `normalizeSchema`, `calculateSchemaHash`,
  `getCurrentSchemaVersion`, `createVersionTable`, `recordSchemaVersion`,
  `isForwardMigration`) is translated into a Lean function of the same name
  over these types; orchestrator functions also return the list of file
  operations they performed (`FileOp`), the observable actions of the run.

The SHA-256 digest used by `calculateSchemaHash` is threaded through as an
abstract `digest : String → String` parameter: every property proved here
holds for an arbitrary digest function, and concrete runs instantiate it.
-/

namespace AutoSQLite

/-- A dynamically typed SQLite cell value as seen through the copy path
(`[]interface{}` in the source): NULL, an integer, or a text value. -/
inductive Cell where
  | null
  | intV (i : Int)
  | textV (s : String)
deriving DecidableEq

/-- Column metadata as reported by `PRAGMA table_info`: name, NOT NULL flag,
and declared default value (if any). -/
structure Column where
  name : String
  notNull : Bool
  dflt : Option Cell
deriving DecidableEq

/-- One table of a database: its name, the defining statement text stored in
`sqlite_master`, its column metadata, and its rows (cells aligned with
`columns`). -/
structure TableData where
  name : String
  createSql : String
  columns : List Column
  rows : List (List Cell)
deriving DecidableEq

/-- Kinds of non-table catalog objects listed by `getFullSchema`. -/
inductive ObjKind where
  | index
  | trigger
  | view
deriving DecidableEq

/-- The `type` string SQLite stores for a non-table catalog object. -/
def ObjKind.str : ObjKind → String
  | .index => "index"
  | .trigger => "trigger"
  | .view => "view"

/-- A non-table catalog object (index, trigger or view): kind, name and
defining statement text. -/
structure CatObject where
  kind : ObjKind
  name : String
  sqlText : String
deriving DecidableEq

/-- The observable content of one SQLite database file. -/
structure Database where
  tables : List TableData
  others : List CatObject
deriving DecidableEq

/-- A brand-new, empty database. -/
def emptyDb : Database := ⟨[], []⟩

/-- The reserved lineage table name (`versionTableName` in the source). -/
def versionTableName : String := "_autosqlite_version"

/-- All catalog object names of a database (tables, indexes, triggers,
views); SQLite rejects a CREATE statement reusing an existing name. -/
def Database.objNames (db : Database) : List String :=
  db.tables.map (fun t => t.name) ++ db.others.map (fun o => o.name)

/-- Caller-supplied schema text, together with the database produced by
executing it against an empty store (`none` when execution fails, e.g. a
syntax error).  The source treats the text as opaque DDL whose only
observable meaning is that result. -/
structure Schema where
  text : String
  result : Option Database
deriving DecidableEq

/-- Executing schema text against a (possibly non-empty) database: fails if
the text itself fails, or if any object it creates clashes with an existing
catalog name; otherwise the created objects are added. -/
def execOn (base : Database) (s : Schema) : Option Database :=
  match s.result with
  | none => none
  | some d =>
      if d.objNames.any (fun n => base.objNames.contains n) then none
      else some ⟨base.tables ++ d.tables, base.others ++ d.others⟩

/-- Whitespace as trimmed by `strings.TrimSpace` (ASCII cases). -/
def isSpaceChar (c : Char) : Bool := c = ' ' || c = '\t' || c = '\n' || c = '\r'

/-- `strings.TrimSpace`: drop leading and trailing whitespace. -/
def strTrim (s : String) : String :=
  ⟨((s.data.dropWhile isSpaceChar).reverse.dropWhile isSpaceChar).reverse⟩

/-- `strings.HasPrefix`. -/
def strStartsWith (s pre : String) : Bool := pre.data.isPrefixOf s.data

/-- `strings.Split(s, "\n")` on the character list. -/
def splitLinesAux : List Char → List (List Char)
  | [] => [[]]
  | c :: rest =>
      match splitLinesAux rest with
      | [] => [[]]
      | l :: ls => if c = '\n' then [] :: l :: ls else (c :: l) :: ls

/-- `strings.Split(s, "\n")`. -/
def splitLines (s : String) : List String := (splitLinesAux s.data).map (fun l => ⟨l⟩)

/-- `strings.Join(ls, sep)`. -/
def strJoin (sep : String) : List String → String
  | [] => ""
  | [l] => l
  | l :: ls => l ++ sep ++ strJoin sep ls

/-- `normalizeSchema` from the source: split into lines, trim each line,
drop blank lines and `--` comment lines, join with single spaces. -/
def normalizeSchema (schema : String) : String :=
  let lines := (splitLines schema).map strTrim
  let kept := lines.filter (fun l => !(l = "" || strStartsWith l "--"))
  strJoin " " kept

/-- `calculateSchemaHash` from the source: digest of the normalized schema
text.  The SHA-256 hex digest is abstracted as the `digest` parameter. -/
def calculateSchemaHash (digest : String → String) (schema : String) : String :=
  digest (normalizeSchema schema)

/-- One row of the catalog listing used for fingerprinting:
`(type, name, sql)` as in `getFullSchema`'s query. -/
abbrev Entry := String × String × String

/-- The sort key of a catalog entry: `ORDER BY type, name`. -/
def entryKey (e : Entry) : String × String := (e.1, e.2.1)

/-- Catalog entry of a table. -/
def entryOfTable (t : TableData) : Entry := ("table", t.name, strTrim t.createSql)

/-- Catalog entry of a non-table object. -/
def entryOfObj (o : CatObject) : Entry := (o.kind.str, o.name, strTrim o.sqlText)

/-- All catalog entries of a database, in catalog (creation) order. -/
def entries (db : Database) : List Entry :=
  db.tables.map entryOfTable ++ db.others.map entryOfObj

/-- The `name NOT LIKE 'sqlite_%'` filter of `getFullSchema`'s query. -/
def keepEntry (e : Entry) : Bool := !(strStartsWith e.2.1 "sqlite_")

/-- The `"%s|%s|%s"` rendering of one catalog entry. -/
def fmtEntry (e : Entry) : String := e.1 ++ "|" ++ e.2.1 ++ "|" ++ e.2.2

/-- The `ORDER BY type, name` comparison on catalog entries. -/
def entryLe (a b : Entry) : Prop := toLex (entryKey a) ≤ toLex (entryKey b)

/-- Lexicographic strict comparison on character lists, written with
structural recursion so that the kernel can evaluate sorting. -/
def charListLt : List Char → List Char → Bool
  | [], [] => false
  | [], _ :: _ => true
  | _ :: _, [] => false
  | a :: as, b :: bs =>
      if a < b then true
      else if b < a then false
      else charListLt as bs

theorem charListLt_iff :
    ∀ as bs : List Char, charListLt as bs = true ↔ List.Lex (fun c d => c < d) as bs
  | [], [] => by
      simp only [charListLt, Bool.false_eq_true, false_iff]
      intro h
      nomatch h
  | [], _ :: _ => by
      simp only [charListLt, true_iff]
      exact List.Lex.nil
  | _ :: _, [] => by
      simp only [charListLt, Bool.false_eq_true, false_iff]
      intro h
      nomatch h
  | a :: as, b :: bs => by
      simp only [charListLt]
      by_cases hab : a < b
      · simp only [if_pos hab, true_iff]
        exact List.Lex.rel hab
      · rw [if_neg hab]
        by_cases hba : b < a
        · simp only [if_pos hba, Bool.false_eq_true, false_iff]
          intro h
          cases h with
          | cons h' => exact lt_irrefl _ hba
          | rel h' => exact hab h'
        · rw [if_neg hba]
          have heq : a = b := le_antisymm (not_lt.mp hba) (not_lt.mp hab)
          subst heq
          rw [charListLt_iff as bs]
          constructor
          · exact fun h => List.Lex.cons h
          · intro h
            cases h with
            | cons h' => exact h'
            | rel h' => exact absurd h' (lt_irrefl _)

/-- Strict string comparison, kernel-computable. -/
def strLtB (a b : String) : Bool := charListLt a.data b.data

theorem strLtB_iff (a b : String) : strLtB a b = true ↔ a < b := by
  have hlt : a < b ↔ List.Lex (fun c d => c < d) a.data b.data := String.lt_iff_toList_lt
  rw [hlt]
  exact charListLt_iff a.data b.data

/-- Non-strict string comparison, kernel-computable. -/
def strLeB (a b : String) : Bool := !charListLt b.data a.data

theorem strLeB_iff (a b : String) : strLeB a b = true ↔ a ≤ b := by
  have hlt : b < a ↔ List.Lex (fun c d => c < d) b.data a.data := String.lt_iff_toList_lt
  have hiff := charListLt_iff b.data a.data
  show (!charListLt b.data a.data) = true ↔ a ≤ b
  cases hx : charListLt b.data a.data with
  | false =>
      simp only [Bool.not_false]
      have hnl : ¬ b < a := fun hc => by
        rw [hx] at hiff
        exact absurd (hiff.mpr (hlt.mp hc)) Bool.false_ne_true
      exact ⟨fun _ => not_lt.mp hnl, fun _ => trivial⟩
  | true =>
      simp only [Bool.not_true]
      have hl : b < a := hlt.mpr (by rw [hx] at hiff; exact hiff.mp rfl)
      exact ⟨fun h => absurd h Bool.false_ne_true, fun h => absurd hl (not_lt.mpr h)⟩

/-- Boolean form of `entryLe`, kernel-computable. -/
def entryLeB (a b : Entry) : Bool :=
  strLtB a.1 b.1 || (a.1 == b.1 && strLeB a.2.1 b.2.1)

theorem entryLeB_iff (a b : Entry) : entryLeB a b = true ↔ entryLe a b := by
  unfold entryLeB entryLe
  rw [Prod.Lex.le_iff]
  simp only [Bool.or_eq_true, Bool.and_eq_true, beq_iff_eq, strLtB_iff, strLeB_iff]
  exact Iff.rfl

instance : DecidableRel entryLe :=
  fun a b => decidable_of_iff (entryLeB a b = true) (entryLeB_iff a b)

instance : IsTotal Entry entryLe :=
  ⟨fun a b => le_total (toLex (entryKey a)) (toLex (entryKey b))⟩

instance : IsTrans Entry entryLe :=
  ⟨fun _ _ _ hab hbc => le_trans hab hbc⟩

/-- Sorting catalog entries by `(type, name)`. -/
def sortEntries (l : List Entry) : List Entry := List.insertionSort entryLe l

/-- `getFullSchema` from the source: the sorted, rendered list of all
non-reserved catalog entries (tables, indexes, triggers, views). -/
def getFullSchema (db : Database) : List String :=
  (sortEntries ((entries db).filter keepEntry)).map fmtEntry

/-- The defining statement text `createVersionTable` executes. -/
def vtCreateSql : String :=
  "CREATE TABLE " ++ versionTableName ++
    " (version INTEGER, hash TEXT NOT NULL, timestamp TEXT NOT NULL, schema_sql TEXT)"

/-- Column metadata of the lineage table created by `createVersionTable`. -/
def vtColumns : List Column :=
  [⟨"version", false, none⟩, ⟨"hash", true, none⟩,
   ⟨"timestamp", true, none⟩, ⟨"schema_sql", false, none⟩]

/-- The lineage table as `createVersionTable` creates it (no rows yet). -/
def vtTable : TableData := ⟨versionTableName, vtCreateSql, vtColumns, []⟩

/-- Look up a table by name (first match in catalog order). -/
def findTable (db : Database) (tn : String) : Option TableData :=
  db.tables.find? (fun t => t.name = tn)

/-- Whether a table of the given name exists. -/
def hasTable (db : Database) (tn : String) : Bool := (findTable db tn).isSome

/-- `createVersionTable` from the source: `CREATE TABLE IF NOT EXISTS`, so a
no-op when the lineage table is already present, otherwise it is appended to
the catalog. -/
def createVersionTable (db : Database) : Database :=
  if hasTable db versionTableName then db
  else ⟨db.tables ++ [vtTable], db.others⟩

/-- `SchemasEqual` from the source, with the live database's content passed
in place of the path: fingerprint the live database; build a scratch
in-memory database, always create the lineage table in it first, execute the
candidate schema into it (any failure degrades to `false`); compare the two
fingerprints element-wise. -/
def SchemasEqual (s : Schema) (live : Database) : Bool :=
  match execOn (createVersionTable emptyDb) s with
  | none => false
  | some temp => getFullSchema live == getFullSchema temp

/-- Replace the first table with the given name. -/
def replaceTable : List TableData → String → TableData → List TableData
  | [], _, _ => []
  | t :: rest, tn, t' => if t.name = tn then t' :: rest else t :: replaceTable rest tn t'

/-- A database with one table replaced. -/
def Database.withTable (db : Database) (tn : String) (t' : TableData) : Database :=
  ⟨replaceTable db.tables tn t', db.others⟩

/-- `GetColumns` from the source: the ordered column-name list reported by
`PRAGMA table_info` (empty for a missing table, as the PRAGMA returns no
rows there). -/
def GetColumns (db : Database) (tn : String) : List String :=
  match findTable db tn with
  | none => []
  | some t => t.columns.map (fun c => c.name)

/-- `GetTables` from the source: user table names in catalog order, with the
reserved lineage table skipped. -/
def GetTables (db : Database) : List String :=
  (db.tables.map (fun t => t.name)).filter (fun n => n ≠ versionTableName)

/-- `FindCommonColumns` from the source: columns present in both lists,
ordered as in the new table's column list. -/
def FindCommonColumns (oldColumns newColumns : List String) : List String :=
  newColumns.filter (fun c => oldColumns.contains c)

/-- Index of a named column in a table's column list. -/
def colIdx (cols : List Column) (c : String) : Option Nat :=
  cols.findIdx? (fun col => col.name = c)

/-- The cell stored for column `col` by `INSERT INTO t (cols) VALUES (vals)`:
the supplied value when the column is named, otherwise its declared default,
otherwise NULL. -/
def cellFor (cols : List String) (vals : List Cell) (col : Column) : Option Cell :=
  match cols.findIdx? (fun c => c = col.name) with
  | some i => vals.get? i
  | none =>
      match col.dflt with
      | some v => some v
      | none => some Cell.null

/-- Build the full stored row, cell by cell (`none` on a missing value). -/
def mapCells (f : Column → Option Cell) : List Column → Option (List Cell)
  | [] => some []
  | c :: cs =>
      match f c, mapCells f cs with
      | some v, some vs => some (v :: vs)
      | _, _ => none

/-- A parameterized `INSERT INTO t (cols) VALUES (vals)`: fails on an
unknown column name, a missing parameter, or a NOT NULL constraint
violation; otherwise appends the completed row. -/
def insertRow (t : TableData) (cols : List String) (vals : List Cell) : Option TableData :=
  if cols.all (fun c => (colIdx t.columns c).isSome) then
    match mapCells (cellFor cols vals) t.columns with
    | none => none
    | some r =>
        if (t.columns.zip r).all (fun p => !(p.1.notNull && p.2 == Cell.null)) then
          some { t with rows := t.rows ++ [r] }
        else none
  else none

/-- Insert one row into a named table of a database. -/
def insertNamed (db : Database) (tn : String) (cols : List String) (vals : List Cell) :
    Option Database :=
  match findTable db tn with
  | none => none
  | some t =>
      match insertRow t cols vals with
      | none => none
      | some t' => some (db.withTable tn t')

/-- The failure switches of the external collaborators: each field models
one fallible call of the source.  `readErrAfter tn = some n` models a
`SELECT` whose row iteration over table `tn` ends in a driver error after
yielding `n` rows (`rows.Next` then returns false and the error is only
visible through `rows.Err`); `now` is the value of `datetime('now')`. -/
structure Env where
  lockFails : Bool
  copyFails : Bool
  renameFails : Bool
  recordFails : Bool
  now : String
  readErrAfter : String → Option Nat

/-- An environment in which no external call fails. -/
def benignEnv : Env := ⟨false, false, false, false, "2024-01-01 00:00:00", fun _ => none⟩

/-- The rows actually yielded by iterating a `SELECT` over table `tn`:
all of them, or a truncated prefix when the iteration ends in an error. -/
def yieldRows (env : Env) (tn : String) (rows : List (List Cell)) : List (List Cell) :=
  match env.readErrAfter tn with
  | none => rows
  | some n => rows.take n

/-- Collect the selected cells, one per requested column name. -/
def mapVals (f : String → Option Cell) : List String → Option (List Cell)
  | [] => some []
  | c :: cs =>
      match f c, mapVals f cs with
      | some v, some vs => some (v :: vs)
      | _, _ => none

/-- Scanning one source row: the values of the common columns, in common
order (fails if the row is shorter than its table's column list claims). -/
def projectRow (cols : List Column) (common : List String) (r : List Cell) :
    Option (List Cell) :=
  mapVals (fun c => (colIdx cols c).bind (fun i => r.get? i)) common

/-- The insert loop of `MigrateTable`: scan and insert each yielded row in
order; the first scan or insert failure aborts (the enclosing transaction is
rolled back, so the caller keeps its original table). -/
def copyRows (common : List String) (oldCols : List Column) :
    TableData → List (List Cell) → Except String TableData
  | t, [] => .ok t
  | t, r :: rest =>
      match projectRow oldCols common r with
      | none => .error "failed to scan row"
      | some vals =>
          match insertRow t common vals with
          | none => .error "constraint failed on insert"
          | some t' => copyRows common oldCols t' rest

/-- `MigrateTable` from the source: compute the common columns; if none,
no-op; otherwise copy the yielded rows of the old table into the new table
inside a single transaction, rolling back on the first scan or insert error.
An iteration-ending driver error is not checked (`rows.Err` is never
consulted), so a truncated prefix commits. -/
def MigrateTable (env : Env) (oldDB newDB : Database) (tn : String) :
    Except String Database :=
  let oldColumns := GetColumns oldDB tn
  let newColumns := GetColumns newDB tn
  let commonColumns := FindCommonColumns oldColumns newColumns
  if commonColumns = [] then .ok newDB
  else
    match findTable oldDB tn, findTable newDB tn with
    | some ot, some nt =>
        match copyRows commonColumns ot.columns nt (yieldRows env tn ot.rows) with
        | .error e => .error e
        | .ok nt' => .ok (newDB.withTable tn nt')
    | _, _ => .error "no such table"

/-- A decoded lineage row as `getCurrentSchemaVersion` scans it. -/
structure VersionRow where
  version : Int
  hash : String
  timestamp : String
deriving DecidableEq

/-- The `ORDER BY version DESC` sort key of a lineage row: its integer
version, with NULL and non-integer cells sorting last in descending order. -/
def verKeyCell : Option Cell → WithBot Int
  | some (Cell.intV i) => (i : WithBot Int)
  | _ => ⊥

/-- One comparison step of `ORDER BY version DESC LIMIT 1`: keep the row
with the larger version key (the earlier row on ties). -/
def pickRow (idx : Nat) (acc : Option (List Cell)) (r : List Cell) : Option (List Cell) :=
  match acc with
  | none => some r
  | some a => if verKeyCell (a.get? idx) < verKeyCell (r.get? idx) then some r else acc

/-- The first row attaining the maximal version value (`ORDER BY version
DESC LIMIT 1`); `none` for an empty table. -/
def maxRowBy (idx : Nat) (rows : List (List Cell)) : Option (List Cell) :=
  rows.foldl (pickRow idx) none

/-- Scanning `(version, hash, timestamp)` out of a lineage row; fails when a
named column is missing or a cell has the wrong type, as `row.Scan` does. -/
def decodeVersionRow (cols : List Column) (r : List Cell) : Option VersionRow :=
  match colIdx cols "version", colIdx cols "hash", colIdx cols "timestamp" with
  | some iv, some ih, some it =>
      match r.get? iv, r.get? ih, r.get? it with
      | some (Cell.intV v), some (Cell.textV h), some (Cell.textV ts) => some ⟨v, h, ts⟩
      | _, _, _ => none
  | _, _, _ => none

/-- `getCurrentSchemaVersion` from the source: `ok none` when the lineage
table is absent; otherwise scan the highest-version row — an EMPTY lineage
table is an error (`row.Scan` returns `sql.ErrNoRows`), as is an undecodable
row or a missing named column. -/
def getCurrentSchemaVersion (db : Database) : Except String (Option VersionRow) :=
  match findTable db versionTableName with
  | none => .ok none
  | some t =>
      match colIdx t.columns "version" with
      | none => .error "failed to query current version"
      | some iv =>
          match maxRowBy iv t.rows with
          | none => .error "sql: no rows in result set"
          | some r =>
              match decodeVersionRow t.columns r with
              | none => .error "failed to scan version row"
              | some v => .ok (some v)

/-- `SELECT COUNT(*) FROM _autosqlite_version WHERE hash = ?`: counts the
lineage rows whose hash cell equals the given text (`none` when the query
itself fails, i.e. no lineage table or no hash column). -/
def countHashRows (db : Database) (h : String) : Option Nat :=
  match findTable db versionTableName with
  | none => none
  | some t =>
      match colIdx t.columns "hash" with
      | none => none
      | some ih =>
          some ((t.rows.filter (fun r => r.get? ih == some (Cell.textV h))).length)

/-- `isForwardMigration` from the source: no current version means allowed;
an exact hash match with the current version is allowed (identical); a hash
recorded anywhere in the lineage table is rejected (backward); otherwise
allowed (forward).  Errors of `getCurrentSchemaVersion` propagate. -/
def isForwardMigration (digest : String → String) (db : Database) (s : Schema) :
    Except String Bool :=
  match getCurrentSchemaVersion db with
  | .error e => .error e
  | .ok none => .ok true
  | .ok (some cur) =>
      let newHash := calculateSchemaHash digest s.text
      if cur.hash = newHash then .ok true
      else
        match countHashRows db newHash with
        | none => .error "failed to count hash rows"
        | some c => if c > 0 then .ok false else .ok true

/-- `recordSchemaVersion` from the source: ensure the lineage table exists,
then insert `(version, hash, datetime('now'), schema_sql)`. -/
def recordSchemaVersion (db : Database) (version : Int) (hash now schemaSql : String) :
    Option Database :=
  let db1 := createVersionTable db
  insertNamed db1 versionTableName ["version", "hash", "timestamp", "schema_sql"]
    [Cell.intV version, Cell.textV hash, Cell.textV now, Cell.textV schemaSql]

/-- Scanning a full lineage row `(version, hash, timestamp, schema_sql)` for
the verbatim copy in `MigrateToNewFile`. -/
def decodeFullVersionRow (cols : List Column) (r : List Cell) :
    Option (Int × String × String × String) :=
  match colIdx cols "version", colIdx cols "hash" with
  | some iv, some ih =>
      match colIdx cols "timestamp", colIdx cols "schema_sql" with
      | some it, some isq =>
          match r.get? iv, r.get? ih, r.get? it, r.get? isq with
          | some (Cell.intV v), some (Cell.textV h),
            some (Cell.textV ts), some (Cell.textV sq) => some (v, h, ts, sq)
          | _, _, _, _ => none
      | _, _ => none
  | _, _ => none

/-- The row-copy loop for the lineage table in `MigrateToNewFile`. -/
def copyVersionRows (cols : List Column) :
    Database → List (List Cell) → Except String Database
  | nd, [] => .ok nd
  | nd, r :: rest =>
      match decodeFullVersionRow cols r with
      | none => .error "failed to scan version row"
      | some (v, h, ts, sq) =>
          match insertNamed nd versionTableName ["version", "hash", "timestamp", "schema_sql"]
              [Cell.intV v, Cell.textV h, Cell.textV ts, Cell.textV sq] with
          | none => .error "failed to insert version row"
          | some nd' => copyVersionRows cols nd' rest

/-- The lineage-table copy step of `MigrateToNewFile`: if the old database
has a lineage table, create one in the new database and copy every row
verbatim; the `SELECT` naming the four columns fails if any is missing. -/
def copyVersionTable (oldDB newDB : Database) : Except String Database :=
  match findTable oldDB versionTableName with
  | none => .ok newDB
  | some ot =>
      let nd := createVersionTable newDB
      if ((colIdx ot.columns "version").isSome && (colIdx ot.columns "hash").isSome &&
          (colIdx ot.columns "timestamp").isSome &&
          (colIdx ot.columns "schema_sql").isSome : Bool) then
        copyVersionRows ot.columns nd ot.rows
      else .error "failed to query version table"

/-- The per-table loop of `MigrateToNewFile`: for every table of the new
catalog that also exists in the old one, run `MigrateTable`; the first
failure aborts the build. -/
def migrateTables (env : Env) (oldDB : Database) (oldTables : List String) :
    Database → List String → Except String Database
  | nd, [] => .ok nd
  | nd, tn :: rest =>
      if oldTables.contains tn then
        match MigrateTable env oldDB nd tn with
        | .error e => .error e
        | .ok nd' => migrateTables env oldDB oldTables nd' rest
      else migrateTables env oldDB oldTables nd rest

/-- The pure build pipeline of `MigrateToNewFile`: execute the candidate
schema into the (normally empty) scratch database, copy the lineage table if
present, then copy data for every common table. -/
def buildNewDb (env : Env) (s : Schema) (oldDB base : Database) : Except String Database :=
  match execOn base s with
  | none => .error "failed to execute new schema"
  | some nd =>
      match copyVersionTable oldDB nd with
      | .error e => .error e
      | .ok nd2 => migrateTables env oldDB (GetTables oldDB) nd2 (GetTables nd2)

/-- The filesystem: a finite map from paths to database files. -/
abbrev FS := List (String × Database)

/-- Look up a path. -/
def FS.get : FS → String → Option Database
  | [], _ => none
  | (q, d) :: rest, p => if p = q then some d else FS.get rest p

/-- Delete a path. -/
def FS.remove (fs : FS) (p : String) : FS := fs.filter (fun e => e.1 ≠ p)

/-- Write a database file at a path. -/
def FS.set (fs : FS) (p : String) (d : Database) : FS := (p, d) :: fs.remove p

/-- Observable file and lock operations performed by a run. -/
inductive FileOp where
  | created (p : String)
  | copied (src dst : String)
  | renamed (src dst : String)
  | removed (p : String)
  | lockAcquired (p : String)
  | lockReleased (p : String)
deriving DecidableEq

/-- `MigrateToNewFile` from the source: build the new database at
`newDbPath` from the one at `oldDbPath`; on any build failure the scratch
file is removed; `oldDbPath` is never written. -/
def MigrateToNewFile (env : Env) (s : Schema) (oldDbPath newDbPath : String)
    (fs : FS) (tr : List FileOp) : Except String Database × FS × List FileOp :=
  let oldDB := (fs.get oldDbPath).getD emptyDb
  let base := (fs.get newDbPath).getD emptyDb
  match buildNewDb env s oldDB base with
  | .error e => (.error e, fs.remove newDbPath, tr ++ [FileOp.removed newDbPath])
  | .ok nd => (.ok nd, fs.set newDbPath nd, tr ++ [FileOp.created newDbPath])

/-- The body of `Migrate` executed under the migration lock: re-check schema
equality, re-check the migration direction, copy the live file to
`path + ".backup"`, build the scratch file, rename it onto the live path,
then re-open and record the next lineage version.  Each failure returns at
that point with the filesystem as the source leaves it. -/
def migrateLocked (digest : String → String) (env : Env) (s : Schema) (dbPath : String)
    (fs : FS) (tr : List FileOp) : Except String Database × FS × List FileOp :=
  let live := (fs.get dbPath).getD emptyDb
  if SchemasEqual s live then (.ok live, fs, tr)
  else
    match isForwardMigration digest live s with
    | .error _ => (.error "failed to check migration direction after lock", fs, tr)
    | .ok false => (.error "backward migration detected after lock", fs, tr)
    | .ok true =>
        if env.copyFails then (.error "failed to create backup", fs, tr)
        else
          let backupPath := dbPath ++ ".backup"
          let fs1 := fs.set backupPath live
          let tr1 := tr ++ [FileOp.copied dbPath backupPath]
          match MigrateToNewFile env s dbPath (dbPath ++ ".tmp") fs1 tr1 with
          | (.error _, fs2, tr2) => (.error "failed to migrate to new file", fs2, tr2)
          | (.ok nd, fs2, tr2) =>
              if env.renameFails then (.error "failed to rename new database", fs2, tr2)
              else
                let fs3 := (fs2.remove (dbPath ++ ".tmp")).set dbPath nd
                let tr3 := tr2 ++ [FileOp.renamed (dbPath ++ ".tmp") dbPath]
                let nextVersion : Int :=
                  match getCurrentSchemaVersion nd with
                  | .ok (some v) => v.version + 1
                  | _ => 1
                if env.recordFails then
                  (.error "failed to record schema version", fs3, tr3)
                else
                  match recordSchemaVersion nd nextVersion
                      (calculateSchemaHash digest s.text) env.now s.text with
                  | none => (.error "failed to record schema version", fs3, tr3)
                  | some nd2 => (.ok nd2, fs3.set dbPath nd2, tr3)

/-- `Migrate` from the source: acquire the advisory lock at
`path + ".migration.lock"`, run the locked body, and on every exit path
after a successful acquisition release the lock and then remove the lock
file (the deferred cleanup, which removes unconditionally). -/
def Migrate (digest : String → String) (env : Env) (s : Schema) (dbPath : String)
    (fs : FS) (tr : List FileOp) : Except String Database × FS × List FileOp :=
  if env.lockFails then (.error "failed to acquire migration lock", fs, tr)
  else
    let lockPath := dbPath ++ ".migration.lock"
    match migrateLocked digest env s dbPath fs (tr ++ [FileOp.lockAcquired lockPath]) with
    | (r, fs', tr') =>
        (r, fs', tr' ++ [FileOp.lockReleased lockPath, FileOp.removed lockPath])

/-- `Open` from the source: if the file exists, open as-is when the schema
is equivalent, reject a backward migration, otherwise migrate; if it does
not exist, the driver creates an empty file, the schema is executed into it
(a failure returns the error, leaving the created file in place), and
lineage version 1 is recorded. -/
def Open (digest : String → String) (env : Env) (s : Schema) (dbPath : String)
    (fs : FS) (tr : List FileOp) : Except String Database × FS × List FileOp :=
  match fs.get dbPath with
  | some live =>
      if SchemasEqual s live then (.ok live, fs, tr)
      else
        match isForwardMigration digest live s with
        | .error _ => (.error "failed to check migration direction", fs, tr)
        | .ok false => (.error "backward migration detected", fs, tr)
        | .ok true => Migrate digest env s dbPath fs tr
  | none =>
      let fs1 := fs.set dbPath emptyDb
      let tr1 := tr ++ [FileOp.created dbPath]
      match execOn emptyDb s with
      | none => (.error "failed to execute schema", fs1, tr1)
      | some d =>
          if env.recordFails then
            (.error "failed to record schema version", fs1.set dbPath d, tr1)
          else
            match recordSchemaVersion d 1 (calculateSchemaHash digest s.text)
                env.now s.text with
            | none => (.error "failed to record schema version", fs1.set dbPath d, tr1)
            | some d2 => (.ok d2, fs1.set dbPath d2, tr1)

/-!
A minimal two-process model of the advisory lock file protocol, for the
cross-process hazard of the unconditional lock-file removal.  Process A runs
the deferred cleanup of `Migrate` — `tmpLock.Unlock()` followed by an
unconditional `os.Remove(lockPath)` — while process B calls `flock.Lock()`
on the same path, which creates the lock file if absent and acquires the
lock once no one holds it (modelled from the spec's description of the
advisory lock collaborator). -/

/-- Shared state of the lock file: whether the file exists on disk, and
whether process A / process B currently holds the advisory lock. -/
structure LockState where
  lockFileExists : Bool
  heldByA : Bool
  heldByB : Bool
deriving DecidableEq

/-- Interleavable atomic steps: A's unlock, A's unconditional remove, and
B's blocking acquisition (enabled exactly when no one holds the lock). -/
inductive LockStep where
  | unlockA
  | removeA
  | acquireB
deriving DecidableEq

/-- One step of the lock protocol; `none` when the step is not enabled. -/
def lockStep (st : LockState) : LockStep → Option LockState
  | .unlockA => if st.heldByA then some { st with heldByA := false } else none
  | .removeA => some { st with lockFileExists := false }
  | .acquireB =>
      if st.heldByA || st.heldByB then none
      else some { st with lockFileExists := true, heldByB := true }

/-- Run a sequence of interleaved steps. -/
def lockRun (st : LockState) : List LockStep → Option LockState
  | [] => some st
  | s :: rest =>
      match lockStep st s with
      | none => none
      | some st' => lockRun st' rest

end AutoSQLite

namespace AutoSQLite

/-! ### Generic helper lemmas -/

theorem string_append_right_inj {s a b : String} (h : s ++ a = s ++ b) : a = b := by
  have h2 := congrArg String.data h
  simp only [String.data_append] at h2
  exact String.ext (List.append_cancel_left h2)

theorem string_append_right_ne {s a b : String} (h : a ≠ b) : s ++ a ≠ s ++ b :=
  fun he => h (string_append_right_inj he)

theorem string_self_ne_append {s t : String} (ht : t.length ≠ 0) : s ≠ s ++ t := by
  intro h
  have h2 := congrArg String.length h
  simp only [String.length_append] at h2
  omega

theorem string_append_ne_self {s t : String} (ht : t.length ≠ 0) : s ++ t ≠ s :=
  fun h => string_self_ne_append ht h.symm

theorem FS.get_set (fs : FS) (p q : String) (d : Database) :
    (fs.set p d).get q = if q = p then some d else fs.get q := by
  by_cases h : q = p
  · simp [FS.set, FS.get, h]
  · simp only [FS.set, FS.get, if_neg h]
    induction fs with
    | nil => simp [FS.remove, FS.get]
    | cons e rest ih =>
        by_cases he : e.1 = p
        · simp only [FS.remove, List.filter]
          rw [show (decide (e.1 ≠ p)) = false by simp [he]]
          have hq : q ≠ e.1 := by rw [he]; exact h
          simp only [FS.remove] at ih
          rw [ih]
          cases e with
          | mk a b => simp only [FS.get]; rw [if_neg (by simpa [he] using hq)]
        · simp only [FS.remove, List.filter]
          rw [show (decide (e.1 ≠ p)) = true by simp [he]]
          cases e with
          | mk a b =>
              simp only [FS.get]
              by_cases hq : q = a
              · simp [hq]
              · rw [if_neg hq, if_neg hq]
                simpa [FS.remove] using ih

theorem FS.get_remove (fs : FS) (p q : String) :
    (fs.remove p).get q = if q = p then none else fs.get q := by
  induction fs with
  | nil => simp [FS.remove, FS.get]
  | cons e rest ih =>
      cases e with
      | mk a b =>
          by_cases he : a = p
          · simp only [FS.remove, List.filter]
            rw [show (decide ((a, b).1 ≠ p)) = false by simp [he]]
            simp only [FS.remove] at ih
            rw [ih]
            by_cases hq : q = p
            · simp [hq]
            · rw [if_neg hq, if_neg hq]
              simp only [FS.get]
              rw [if_neg (by rw [he]; exact hq)]
          · simp only [FS.remove, List.filter]
            rw [show (decide ((a, b).1 ≠ p)) = true by simp [he]]
            simp only [FS.get]
            by_cases hq : q = a
            · rw [if_pos hq, if_pos hq, if_neg (by rw [hq]; exact he)]
            · rw [if_neg hq, if_neg hq]
              simpa [FS.remove] using ih

/-! ### Fingerprint sorting: sorting a permutation with distinct keys is
invariant -/

/-- The strict `(type, name)` order on catalog entries. -/
def entryLt (a b : Entry) : Prop := toLex (entryKey a) < toLex (entryKey b)

instance : IsAntisymm Entry entryLt :=
  ⟨fun _ _ h1 h2 => (lt_asymm h1 h2).elim⟩

theorem sortEntries_eq_of_perm {l₁ l₂ : List Entry} (hp : l₁.Perm l₂)
    (hk : l₁.Pairwise (fun a b => entryKey a ≠ entryKey b)) :
    sortEntries l₁ = sortEntries l₂ := by
  have hsymm : ∀ {a b : Entry}, entryKey a ≠ entryKey b → entryKey b ≠ entryKey a :=
    fun h he => h he.symm
  have hp₁ : (sortEntries l₁).Perm l₁ := List.perm_insertionSort entryLe l₁
  have hp₂ : (sortEntries l₂).Perm l₂ := List.perm_insertionSort entryLe l₂
  have hk₁ : (sortEntries l₁).Pairwise (fun a b => entryKey a ≠ entryKey b) :=
    (List.Perm.pairwise_iff @hsymm hp₁).mpr hk
  have hk₂ : (sortEntries l₂).Pairwise (fun a b => entryKey a ≠ entryKey b) :=
    (List.Perm.pairwise_iff @hsymm hp₂).mpr ((List.Perm.pairwise_iff @hsymm hp).mp hk)
  have hs₁ : (sortEntries l₁).Pairwise entryLe := List.sorted_insertionSort entryLe l₁
  have hs₂ : (sortEntries l₂).Pairwise entryLe := List.sorted_insertionSort entryLe l₂
  have hlt₁ : (sortEntries l₁).Pairwise entryLt :=
    (hs₁.and hk₁).imp (fun h =>
      lt_of_le_of_ne h.1 (fun he => h.2 (by
        have : entryKey _ = entryKey _ := congrArg (fun x => ofLex x) he
        exact this)))
  have hlt₂ : (sortEntries l₂).Pairwise entryLt :=
    (hs₂.and hk₂).imp (fun h =>
      lt_of_le_of_ne h.1 (fun he => h.2 (by
        have : entryKey _ = entryKey _ := congrArg (fun x => ofLex x) he
        exact this)))
  exact List.eq_of_perm_of_sorted (hp₁.trans (hp.trans hp₂.symm)) hlt₁ hlt₂

theorem getFullSchema_eq_of_perm {d₁ d₂ : Database} (hp : (entries d₁).Perm (entries d₂))
    (hk : (entries d₁).Pairwise (fun a b => entryKey a ≠ entryKey b)) :
    getFullSchema d₁ = getFullSchema d₂ := by
  unfold getFullSchema
  have hpf : ((entries d₁).filter keepEntry).Perm ((entries d₂).filter keepEntry) :=
    hp.filter keepEntry
  have hkf : ((entries d₁).filter keepEntry).Pairwise
      (fun a b => entryKey a ≠ entryKey b) :=
    hk.sublist (List.filter_sublist _)
  rw [sortEntries_eq_of_perm hpf hkf]

end AutoSQLite

namespace AutoSQLite

/-! ### The scratch comparison database of `SchemasEqual` -/

theorem createVersionTable_emptyDb : createVersionTable emptyDb = ⟨[vtTable], []⟩ := rfl

/-- A database whose catalog entries have pairwise distinct `(type, name)`
keys — true of every real SQLite catalog, where names are unique. -/
def goodKeys (d : Database) : Prop :=
  (entries d).Pairwise (fun a b => entryKey a ≠ entryKey b)

instance (d : Database) : Decidable (goodKeys d) := by
  unfold goodKeys
  exact List.instDecidablePairwise _

theorem ObjKind.str_ne_table (k : ObjKind) : k.str ≠ "table" := by
  cases k <;> decide

theorem execOn_vtOnly {s : Schema} {d : Database} (hres : s.result = some d)
    (hvt : versionTableName ∉ d.objNames) :
    execOn (createVersionTable emptyDb) s = some ⟨vtTable :: d.tables, d.others⟩ := by
  rw [createVersionTable_emptyDb]
  unfold execOn
  rw [hres]
  have hnames : Database.objNames ⟨[vtTable], []⟩ = [versionTableName] := rfl
  have hany : d.objNames.any
      (fun n => (Database.objNames ⟨[vtTable], []⟩).contains n) = false := by
    rw [List.any_eq_false]
    intro n hn
    rw [hnames]
    simp only [List.contains_cons, List.contains_nil, Bool.or_false]
    have : n ≠ versionTableName := fun he => hvt (he ▸ hn)
    simpa using this
  simp only [hany, if_false]
  rfl

theorem entries_append_vt (d : Database) (rs : List (List Cell)) :
    entries ⟨d.tables ++ [{ vtTable with rows := rs }], d.others⟩ =
      d.tables.map entryOfTable ++ [entryOfTable vtTable] ++ d.others.map entryOfObj := by
  unfold entries
  simp only [List.map_append, List.map_cons, List.map_nil]
  rfl

theorem entries_cons_vt (d : Database) :
    entries ⟨vtTable :: d.tables, d.others⟩ =
      entryOfTable vtTable :: (d.tables.map entryOfTable ++ d.others.map entryOfObj) := by
  unfold entries
  rfl

theorem vt_key_fresh {d : Database} (hvt : versionTableName ∉ d.objNames) :
    ∀ e ∈ entries d, entryKey (entryOfTable vtTable) ≠ entryKey e := by
  intro e he
  unfold entries at he
  rcases List.mem_append.mp he with h | h
  · rcases List.mem_map.mp h with ⟨t, ht, rfl⟩
    intro hk
    have : versionTableName = t.name := congrArg Prod.snd hk
    apply hvt
    unfold Database.objNames
    exact List.mem_append.mpr (Or.inl (this ▸ List.mem_map.mpr ⟨t, ht, rfl⟩))
  · rcases List.mem_map.mp h with ⟨o, _, rfl⟩
    intro hk
    exact ObjKind.str_ne_table o.kind (congrArg Prod.fst hk).symm

/-- Core lemma: when the live database is exactly the candidate schema's
objects plus the engine-created lineage table (with any row content), the
fingerprint comparison of `SchemasEqual` succeeds, because the scratch
database also receives the lineage table before the schema is executed. -/
theorem schemasEqual_vt {s : Schema} {d : Database} (rs : List (List Cell))
    (hres : s.result = some d) (hkeys : goodKeys d)
    (hvt : versionTableName ∉ d.objNames) :
    SchemasEqual s ⟨d.tables ++ [{ vtTable with rows := rs }], d.others⟩ = true := by
  unfold SchemasEqual
  rw [execOn_vtOnly hres hvt]
  have hperm : (entries ⟨vtTable :: d.tables, d.others⟩).Perm
      (entries ⟨d.tables ++ [{ vtTable with rows := rs }], d.others⟩) := by
    rw [entries_cons_vt, entries_append_vt]
    have h1 : entryOfTable vtTable :: (d.tables.map entryOfTable ++ d.others.map entryOfObj)
        = ([entryOfTable vtTable] ++ d.tables.map entryOfTable) ++ d.others.map entryOfObj := by
      simp
    rw [h1]
    exact (List.perm_append_comm).append_right _
  have hkeysc : (entries ⟨vtTable :: d.tables, d.others⟩).Pairwise
      (fun a b => entryKey a ≠ entryKey b) := by
    rw [entries_cons_vt]
    rw [List.pairwise_cons]
    constructor
    · intro e he
      exact vt_key_fresh hvt e (by unfold entries; exact he)
    · exact hkeys
  rw [← getFullSchema_eq_of_perm hperm hkeysc]
  simp

end AutoSQLite

namespace AutoSQLite

/-! ### Shape preservation: data migration changes rows, never the catalog -/

/-- The catalog-visible part of a table: name, defining SQL, and columns.
Row copies preserve it. -/
def tableShape (t : TableData) : String × String × List Column :=
  (t.name, t.createSql, t.columns)

theorem insertRow_shape {t t' : TableData} {cols : List String} {vals : List Cell}
    (h : insertRow t cols vals = some t') : tableShape t' = tableShape t := by
  unfold insertRow at h
  split at h
  · split at h
    · exact absurd h (by simp)
    · split at h
      · cases h
        rfl
      · exact absurd h (by simp)
  · exact absurd h (by simp)

theorem replaceTable_shape {tn : String} {t' : TableData} :
    ∀ {ts : List TableData} {t₀ : TableData},
      ts.find? (fun t => t.name = tn) = some t₀ →
      tableShape t' = tableShape t₀ →
      (replaceTable ts tn t').map tableShape = ts.map tableShape := by
  intro ts
  induction ts with
  | nil => intro t₀ hf _; simp [List.find?] at hf
  | cons t rest ih =>
      intro t₀ hf hsh
      by_cases hn : t.name = tn
      · rw [List.find?_cons_of_pos _ (by simp [hn])] at hf
        cases hf
        simp only [replaceTable, if_pos hn, List.map_cons]
        rw [hsh]
      · rw [List.find?_cons_of_neg _ (by simp [hn])] at hf
        simp only [replaceTable, if_neg hn, List.map_cons]
        rw [ih hf hsh]

theorem insertNamed_shape {db db' : Database} {tn : String} {cols : List String}
    {vals : List Cell} (h : insertNamed db tn cols vals = some db') :
    db'.tables.map tableShape = db.tables.map tableShape ∧ db'.others = db.others := by
  unfold insertNamed at h
  split at h
  · exact absurd h (by simp)
  · rename_i t hf
    split at h
    · exact absurd h (by simp)
    · rename_i t' hins
      cases h
      exact ⟨replaceTable_shape hf (insertRow_shape hins), rfl⟩

theorem createVersionTable_present {db : Database}
    (h : hasTable db versionTableName = true) : createVersionTable db = db := by
  unfold createVersionTable
  rw [h]
  rfl

theorem createVersionTable_absent {db : Database}
    (h : hasTable db versionTableName = false) :
    createVersionTable db = ⟨db.tables ++ [vtTable], db.others⟩ := by
  unfold createVersionTable
  rw [h]
  rfl

theorem hasTable_iff {db : Database} {tn : String} :
    hasTable db tn = true ↔ tn ∈ db.tables.map (fun t => t.name) := by
  unfold hasTable findTable
  rw [Option.isSome_iff_exists]
  constructor
  · rintro ⟨t, ht⟩
    have hm0 := List.find?_some ht
    have hm : t.name = tn := by simpa using hm0
    have hmem := List.mem_of_find?_eq_some ht
    exact List.mem_map.mpr ⟨t, hmem, hm⟩
  · intro hm
    rcases List.mem_map.mp hm with ⟨t, hmem, hn⟩
    have hs : (db.tables.find? (fun t => t.name = tn)).isSome :=
      List.find?_isSome.mpr ⟨t, hmem, decide_eq_true hn⟩
    rcases Option.isSome_iff_exists.mp hs with ⟨u, hu⟩
    exact ⟨u, hu⟩

theorem hasTable_false_of_not_mem {db : Database} {tn : String}
    (h : tn ∉ db.tables.map (fun t => t.name)) : hasTable db tn = false := by
  cases hh : hasTable db tn with
  | false => rfl
  | true => exact absurd (hasTable_iff.mp hh) h

theorem colIdx_get : ∀ {cols : List Column} {c : String} {i : Nat},
    colIdx cols c = some i → ∃ col, cols.get? i = some col ∧ col.name = c := by
  intro cols
  induction cols with
  | nil => intro c i h; simp [colIdx, List.findIdx?] at h
  | cons col rest ih =>
      intro c i h
      unfold colIdx at h
      rw [List.findIdx?_cons] at h
      by_cases hn : col.name = c
      · rw [if_pos (by simp [hn])] at h
        cases h
        exact ⟨col, rfl, hn⟩
      · rw [if_neg (by simp [hn])] at h
        rw [List.findIdx?_succ] at h
        simp only [Option.map_eq_some'] at h
        rcases h with ⟨j, hj, rfl⟩
        rcases ih (c := c) (i := j) hj with ⟨col', hc, hcn⟩
        exact ⟨col', by simpa using hc, hcn⟩

theorem mapCells_get? {f : Column → Option Cell} :
    ∀ {l : List Column} {r : List Cell}, mapCells f l = some r →
      ∀ {i : Nat} {x : Column}, l.get? i = some x → r.get? i = f x := by
  intro l
  induction l with
  | nil => intro r h i x hx; simp at hx
  | cons a as ih =>
      intro r h i x hx
      unfold mapCells at h
      cases hfa : f a with
      | none => rw [hfa] at h; exact absurd h (by simp)
      | some b =>
          rw [hfa] at h
          cases hrest : mapCells f as with
          | none => rw [hrest] at h; exact absurd h (by simp)
          | some bs =>
              rw [hrest] at h
              cases h
              cases i with
              | zero =>
                  simp only [List.get?] at hx
                  cases hx
                  simpa using hfa.symm
              | succ j =>
                  simp only [List.get?] at hx ⊢
                  exact ih hrest hx

theorem find?_replaceTable {tn : String} {t₀ t' : TableData} (hn : t'.name = tn) :
    ∀ {ts : List TableData}, ts.find? (fun t => t.name = tn) = some t₀ →
      (replaceTable ts tn t').find? (fun t => t.name = tn) = some t' := by
  intro ts
  induction ts with
  | nil => intro hf; simp [List.find?] at hf
  | cons t rest ih =>
      intro hf
      by_cases hh : t.name = tn
      · simp only [replaceTable, if_pos hh]
        exact List.find?_cons_of_pos _ (by simp [hn])
      · rw [List.find?_cons_of_neg _ (by simp [hh])] at hf
        simp only [replaceTable, if_neg hh]
        rw [List.find?_cons_of_neg _ (by simp [hh])]
        exact ih hf

theorem findTable_replaceTable {db : Database} {tn : String} {t₀ t' : TableData}
    (hf : findTable db tn = some t₀) (hn : t'.name = tn) :
    findTable (db.withTable tn t') tn = some t' :=
  find?_replaceTable hn hf

end AutoSQLite

namespace AutoSQLite

theorem copyRows_shape {common : List String} {oldCols : List Column} :
    ∀ {rows : List (List Cell)} {t t' : TableData},
      copyRows common oldCols t rows = .ok t' → tableShape t' = tableShape t := by
  intro rows
  induction rows with
  | nil =>
      intro t t' h
      unfold copyRows at h
      cases h
      rfl
  | cons r rest ih =>
      intro t t' h
      unfold copyRows at h
      split at h
      · exact absurd h (by simp)
      · rename_i vals hproj
        split at h
        · exact absurd h (by simp)
        · rename_i t'' hins
          exact (ih h).trans (insertRow_shape hins)

theorem MigrateTable_shape {env : Env} {oldDB newDB nd' : Database} {tn : String}
    (h : MigrateTable env oldDB newDB tn = .ok nd') :
    nd'.tables.map tableShape = newDB.tables.map tableShape ∧ nd'.others = newDB.others := by
  simp only [MigrateTable] at h
  split at h
  · cases h
    exact ⟨rfl, rfl⟩
  · split at h
    · rename_i ot nt hot hnt
      split at h
      · exact absurd h (by simp)
      · rename_i nt' hcopy
        cases h
        exact ⟨replaceTable_shape hnt (copyRows_shape hcopy), rfl⟩
    · exact absurd h (by simp)

theorem migrateTables_shape {env : Env} {oldDB : Database} {olds : List String} :
    ∀ {tns : List String} {nd nd' : Database},
      migrateTables env oldDB olds nd tns = .ok nd' →
      nd'.tables.map tableShape = nd.tables.map tableShape ∧ nd'.others = nd.others := by
  intro tns
  induction tns with
  | nil =>
      intro nd nd' h
      unfold migrateTables at h
      cases h
      exact ⟨rfl, rfl⟩
  | cons tn rest ih =>
      intro nd nd' h
      unfold migrateTables at h
      split at h
      · split at h
        · exact absurd h (by simp)
        · rename_i nd₂ hmt
          rcases ih h with ⟨h1, h2⟩
          rcases MigrateTable_shape hmt with ⟨h3, h4⟩
          exact ⟨h1.trans h3, h2.trans h4⟩
      · exact ih h

theorem copyVersionRows_shape {cols : List Column} :
    ∀ {rows : List (List Cell)} {nd nd' : Database},
      copyVersionRows cols nd rows = .ok nd' →
      nd'.tables.map tableShape = nd.tables.map tableShape ∧ nd'.others = nd.others := by
  intro rows
  induction rows with
  | nil =>
      intro nd nd' h
      unfold copyVersionRows at h
      cases h
      exact ⟨rfl, rfl⟩
  | cons r rest ih =>
      intro nd nd' h
      unfold copyVersionRows at h
      split at h
      · exact absurd h (by simp)
      · rename_i tup htup
        split at h
        · exact absurd h (by simp)
        · rename_i nd₂ hins
          rcases ih h with ⟨h1, h2⟩
          rcases insertNamed_shape hins with ⟨h3, h4⟩
          exact ⟨h1.trans h3, h2.trans h4⟩

end AutoSQLite

namespace AutoSQLite

theorem execOn_emptyDb (s : Schema) : execOn emptyDb s = s.result := by
  unfold execOn
  cases hr : s.result with
  | none => rfl
  | some d => simp [emptyDb, Database.objNames]

theorem insertRow_vt {t : TableData} (hcols : t.columns = vtColumns)
    (v : Int) (h now txt : String) :
    insertRow t ["version", "hash", "timestamp", "schema_sql"]
        [Cell.intV v, Cell.textV h, Cell.textV now, Cell.textV txt] =
      some { t with rows :=
        t.rows ++ [[Cell.intV v, Cell.textV h, Cell.textV now, Cell.textV txt]] } := by
  obtain ⟨n, c, cols, rows⟩ := t
  simp only at hcols
  subst hcols
  rfl

theorem insertNamed_vt {db : Database} {t : TableData}
    (hf : findTable db versionTableName = some t) (hcols : t.columns = vtColumns)
    (v : Int) (h now txt : String) :
    insertNamed db versionTableName ["version", "hash", "timestamp", "schema_sql"]
        [Cell.intV v, Cell.textV h, Cell.textV now, Cell.textV txt] =
      some (db.withTable versionTableName { t with rows :=
        t.rows ++ [[Cell.intV v, Cell.textV h, Cell.textV now, Cell.textV txt]] }) := by
  unfold insertNamed
  simp only [hf, insertRow_vt hcols]

theorem recordSchemaVersion_present {db : Database} {t : TableData}
    (hf : findTable db versionTableName = some t) (hcols : t.columns = vtColumns)
    (v : Int) (h now txt : String) :
    recordSchemaVersion db v h now txt =
      some (db.withTable versionTableName { t with rows :=
        t.rows ++ [[Cell.intV v, Cell.textV h, Cell.textV now, Cell.textV txt]] }) := by
  unfold recordSchemaVersion
  have hpres : hasTable db versionTableName = true := by
    unfold hasTable
    rw [hf]
    rfl
  rw [createVersionTable_present hpres]
  exact insertNamed_vt hf hcols v h now txt

theorem find?_append_of_none {p : TableData → Bool} {ts us : List TableData}
    (h : ts.find? p = none) : (ts ++ us).find? p = us.find? p := by
  induction ts with
  | nil => simp
  | cons t rest ih =>
      rw [List.find?_cons] at h
      cases hp : p t with
      | true => rw [hp] at h; exact absurd h (by simp)
      | false =>
          rw [hp] at h
          rw [List.cons_append, List.find?_cons, hp]
          exact ih h

theorem replaceTable_append_singleton (ts : List TableData) (tn : String)
    (u u' : TableData) (hnone : ∀ t ∈ ts, t.name ≠ tn) (hname : u.name = tn) :
    replaceTable (ts ++ [u]) tn u' = ts ++ [u'] := by
  induction ts with
  | nil => simp [replaceTable, hname]
  | cons t rest ih =>
      have hn : t.name ≠ tn := hnone t (by simp)
      simp only [List.cons_append, replaceTable, if_neg hn]
      exact congrArg (fun l => t :: l) (ih (fun w hw => hnone w (by simp [hw])))

theorem recordSchemaVersion_absent {db : Database}
    (hvt : hasTable db versionTableName = false) (v : Int) (h now txt : String) :
    recordSchemaVersion db v h now txt =
      some ⟨db.tables ++ [{ vtTable with rows :=
        [[Cell.intV v, Cell.textV h, Cell.textV now, Cell.textV txt]] }], db.others⟩ := by
  unfold recordSchemaVersion
  rw [createVersionTable_absent hvt]
  have hnone : db.tables.find? (fun t => t.name = versionTableName) = none := by
    cases hff : db.tables.find? (fun t => t.name = versionTableName) with
    | none => rfl
    | some u =>
        have hu := List.find?_some hff
        have humem := List.mem_of_find?_eq_some hff
        have : hasTable db versionTableName = true := by
          unfold hasTable findTable
          rw [hff]
          rfl
        rw [hvt] at this
        exact absurd this (by simp)
  have hfind : findTable ⟨db.tables ++ [vtTable], db.others⟩ versionTableName =
      some vtTable := by
    unfold findTable
    simp only
    rw [find?_append_of_none hnone]
    rfl
  have hnone' : ∀ t ∈ db.tables, t.name ≠ versionTableName := by
    intro t ht he
    have : hasTable db versionTableName = true :=
      hasTable_iff.mpr (List.mem_map.mpr ⟨t, ht, he⟩)
    rw [hvt] at this
    exact absurd this (by simp)
  rw [insertNamed_vt hfind rfl v h now txt]
  unfold Database.withTable
  rw [replaceTable_append_singleton db.tables versionTableName vtTable
    { vtTable with rows :=
        vtTable.rows ++ [[Cell.intV v, Cell.textV h, Cell.textV now, Cell.textV txt]] }
    hnone' rfl]
  rfl

end AutoSQLite

namespace AutoSQLite

theorem names_of_shape (ts : List TableData) :
    (ts.map tableShape).map (fun p => p.1) = ts.map (fun t => t.name) := by
  rw [List.map_map]
  rfl

theorem findTable_of_shape :
    ∀ {ts : List TableData} {A : List (String × String × List Column)},
      ts.map tableShape = A ++ [tableShape vtTable] →
      versionTableName ∉ A.map (fun p => p.1) →
      ∃ t, ts.find? (fun t => t.name = versionTableName) = some t ∧
        t.name = versionTableName ∧ t.columns = vtColumns := by
  intro ts
  induction ts with
  | nil =>
      intro A h hA
      exact absurd h (by simp)
  | cons t rest ih =>
      intro A h hA
      cases A with
      | nil =>
          simp only [List.map_cons, List.nil_append] at h
          have h1 : tableShape t = tableShape vtTable := (List.cons.injEq _ _ _ _).mp h |>.1
          have hn : t.name = versionTableName :=
            congrArg (fun p : String × String × List Column => p.1) h1
          have hc : t.columns = vtColumns :=
            congrArg (fun p : String × String × List Column => p.2.2) h1
          exact ⟨t, List.find?_cons_of_pos _ (by simp [hn]), hn, hc⟩
      | cons a A' =>
          simp only [List.map_cons, List.cons_append] at h
          have h1 : tableShape t = a := (List.cons.injEq _ _ _ _).mp h |>.1
          have h2 : rest.map tableShape = A' ++ [tableShape vtTable] :=
            (List.cons.injEq _ _ _ _).mp h |>.2
          have hna : versionTableName ≠ a.1 := by
            intro he
            exact hA (by simp [he])
          have hta : t.name = a.1 :=
            congrArg (fun p : String × String × List Column => p.1) h1
          have hnt : t.name ≠ versionTableName := fun he => hna (he.symm.trans hta)
          have hA' : versionTableName ∉ A'.map (fun p => p.1) := by
            intro hm
            exact hA (by simp [hm])
          rcases ih h2 hA' with ⟨u, hu, hun, huc⟩
          exact ⟨u, by rw [List.find?_cons_of_neg _ (by simp [hnt])]; exact hu, hun, huc⟩

theorem copyVersionTable_shape {oldDB nd nd2 : Database}
    (h : copyVersionTable oldDB nd = .ok nd2) :
    (nd2.tables.map tableShape = nd.tables.map tableShape ∧ nd2.others = nd.others) ∨
    (hasTable nd versionTableName = false ∧
      nd2.tables.map tableShape = nd.tables.map tableShape ++ [tableShape vtTable] ∧
      nd2.others = nd.others) := by
  simp only [copyVersionTable] at h
  split at h
  · cases h
    exact Or.inl ⟨rfl, rfl⟩
  · rename_i ot hot
    split at h
    · rcases copyVersionRows_shape h with ⟨h1, h2⟩
      cases hvt : hasTable nd versionTableName with
      | true =>
          rw [createVersionTable_present hvt] at h1 h2
          exact Or.inl ⟨h1, h2⟩
      | false =>
          rw [createVersionTable_absent hvt] at h1 h2
          refine Or.inr ⟨rfl, ?_, h2⟩
          rw [h1]
          simp
    · exact absurd h (by simp)

theorem buildNewDb_shape {env : Env} {s : Schema} {d oldDB m : Database}
    (hres : s.result = some d) (h : buildNewDb env s oldDB emptyDb = .ok m) :
    (m.tables.map tableShape = d.tables.map tableShape ∧ m.others = d.others) ∨
    (hasTable d versionTableName = false ∧
      m.tables.map tableShape = d.tables.map tableShape ++ [tableShape vtTable] ∧
      m.others = d.others) := by
  unfold buildNewDb at h
  rw [execOn_emptyDb, hres] at h
  simp only at h
  split at h
  · exact absurd h (by simp)
  · rename_i nd2 hcvt
    rcases migrateTables_shape h with ⟨h1, h2⟩
    rcases copyVersionTable_shape hcvt with ⟨h3, h4⟩ | ⟨hvt, h3, h4⟩
    · exact Or.inl ⟨h1.trans h3, h2.trans h4⟩
    · exact Or.inr ⟨hvt, h1.trans h3, h2.trans h4⟩

/-- Entry of a table shape (tables with equal shapes have equal entries). -/
def entryOfShape (p : String × String × List Column) : Entry :=
  ("table", p.1, strTrim p.2.1)

theorem map_entryOfTable_shape (ts : List TableData) :
    ts.map entryOfTable = (ts.map tableShape).map entryOfShape := by
  rw [List.map_map]
  rfl

/-- Generalization of the core comparison lemma: any live database whose
catalog is the candidate schema's tables (with any rows) followed by the
engine-created lineage table fingerprints equal to the scratch database. -/
theorem schemasEqual_of_shape {s : Schema} {d live : Database}
    (hres : s.result = some d) (hkeys : goodKeys d)
    (hvt : versionTableName ∉ d.objNames)
    (ht : live.tables.map tableShape = d.tables.map tableShape ++ [tableShape vtTable])
    (ho : live.others = d.others) :
    SchemasEqual s live = true := by
  unfold SchemasEqual
  rw [execOn_vtOnly hres hvt]
  have hentT : live.tables.map entryOfTable =
      d.tables.map entryOfTable ++ [entryOfTable vtTable] := by
    rw [map_entryOfTable_shape, ht, List.map_append, ← map_entryOfTable_shape]
    rfl
  have hperm : (entries ⟨vtTable :: d.tables, d.others⟩).Perm (entries live) := by
    rw [entries_cons_vt]
    unfold entries
    rw [hentT, ho]
    have h1 : entryOfTable vtTable :: (d.tables.map entryOfTable ++ d.others.map entryOfObj)
        = ([entryOfTable vtTable] ++ d.tables.map entryOfTable) ++ d.others.map entryOfObj := by
      simp
    rw [h1]
    exact (List.perm_append_comm).append_right _
  have hkeysc : (entries ⟨vtTable :: d.tables, d.others⟩).Pairwise
      (fun a b => entryKey a ≠ entryKey b) := by
    rw [entries_cons_vt]
    rw [List.pairwise_cons]
    constructor
    · intro e he
      exact vt_key_fresh hvt e (by unfold entries; exact he)
    · exact hkeys
  rw [← getFullSchema_eq_of_perm hperm hkeysc]
  simp

end AutoSQLite

namespace AutoSQLite

theorem MigrateToNewFile_ok {env : Env} {s : Schema} {op np : String} {fs : FS}
    {tr : List FileOp} {r : Database} {fs' : FS} {tr' : List FileOp}
    (h : MigrateToNewFile env s op np fs tr = (.ok r, fs', tr')) :
    buildNewDb env s ((fs.get op).getD emptyDb) ((fs.get np).getD emptyDb) = .ok r ∧
    fs' = fs.set np r ∧ tr' = tr ++ [FileOp.created np] := by
  simp only [MigrateToNewFile] at h
  split at h
  · rename_i e hb
    simp only [Prod.mk.injEq] at h
    exact absurd h.1 (by simp)
  · rename_i nd hb
    simp only [Prod.mk.injEq] at h
    rcases h with ⟨h1, h2, h3⟩
    cases h1
    exact ⟨hb, h2.symm, h3.symm⟩

theorem MigrateToNewFile_error {env : Env} {s : Schema} {op np : String} {fs : FS}
    {tr : List FileOp} {e : String} {fs' : FS} {tr' : List FileOp}
    (h : MigrateToNewFile env s op np fs tr = (.error e, fs', tr')) :
    fs' = fs.remove np ∧ tr' = tr ++ [FileOp.removed np] := by
  simp only [MigrateToNewFile] at h
  split at h
  · simp only [Prod.mk.injEq] at h
    exact ⟨h.2.1.symm, h.2.2.symm⟩
  · simp only [Prod.mk.injEq] at h
    exact absurd h.1 (by simp)

theorem get_set_ne (fs : FS) (p q : String) (d : Database) (h : q ≠ p) :
    (fs.set p d).get q = fs.get q := by
  rw [FS.get_set, if_neg h]

theorem get_set_eq (fs : FS) (p : String) (d : Database) :
    (fs.set p d).get p = some d := by
  rw [FS.get_set, if_pos rfl]

theorem get_remove_ne (fs : FS) (p q : String) (h : q ≠ p) :
    (fs.remove p).get q = fs.get q := by
  rw [FS.get_remove, if_neg h]

theorem get_remove_eq (fs : FS) (p : String) : (fs.remove p).get p = none := by
  rw [FS.get_remove, if_pos rfl]

theorem backup_ne_path (p : String) : p ++ ".backup" ≠ p := by
  intro h
  exact string_self_ne_append (by decide) h.symm

theorem tmp_ne_path (p : String) : p ++ ".tmp" ≠ p := by
  intro h
  exact string_self_ne_append (by decide) h.symm

theorem path_ne_backup (p : String) : p ≠ p ++ ".backup" :=
  string_self_ne_append (by decide)

theorem path_ne_tmp (p : String) : p ≠ p ++ ".tmp" :=
  string_self_ne_append (by decide)

theorem tmp_ne_backup (p : String) : p ++ ".tmp" ≠ p ++ ".backup" :=
  string_append_right_ne (by decide)

theorem backup_ne_tmp (p : String) : p ++ ".backup" ≠ p ++ ".tmp" :=
  string_append_right_ne (by decide)

end AutoSQLite

namespace AutoSQLite

/-- Success characterization of the locked migration body: either the
re-check found the schemas equal and nothing was done, or a full migration
ran and the live path now holds the migrated database, whose catalog is the
candidate schema's tables followed by the lineage table, with no scratch
file left. -/
theorem migrateLocked_ok {digest : String → String} {env : Env} {s : Schema} {d : Database}
    {p : String} {fs : FS} {tr : List FileOp} {db' : Database} {fs' : FS}
    {tr' : List FileOp}
    (hres : s.result = some d) (hvt : versionTableName ∉ d.objNames)
    (htmp : fs.get (p ++ ".tmp") = none)
    (h : migrateLocked digest env s p fs tr = (.ok db', fs', tr')) :
    (SchemasEqual s ((fs.get p).getD emptyDb) = true ∧
      db' = (fs.get p).getD emptyDb ∧ fs' = fs ∧ tr' = tr) ∨
    (db'.tables.map tableShape = d.tables.map tableShape ++ [tableShape vtTable] ∧
      db'.others = d.others ∧ fs'.get p = some db' ∧
      fs'.get (p ++ ".tmp") = none) := by
  have hvtd : versionTableName ∉ d.tables.map (fun t => t.name) := by
    intro hm
    exact hvt (List.mem_append.mpr (Or.inl hm))
  simp only [migrateLocked] at h
  split at h
  · rename_i hse
    simp only [Prod.mk.injEq, Except.ok.injEq] at h
    rcases h with ⟨h1, h2, h3⟩
    exact Or.inl ⟨hse, h1.symm, h2.symm, h3.symm⟩
  · split at h
    · exact absurd h (by simp)
    · exact absurd h (by simp)
    · split at h
      · exact absurd h (by simp)
      · split at h
        · exact absurd h (by simp)
        · rename_i nd fs2 tr2 hmtnf
          split at h
          · exact absurd h (by simp)
          · split at h
            · exact absurd h (by simp)
            · split at h
              · exact absurd h (by simp)
              · rename_i nd2 hrec
                simp only [Prod.mk.injEq, Except.ok.injEq] at h
                rcases h with ⟨h1, h2, h3⟩
                rcases MigrateToNewFile_ok hmtnf with ⟨hb, hfs2, htr2⟩
                rw [get_set_ne fs (p ++ ".backup") p _ (path_ne_backup p)] at hb
                rw [get_set_ne fs (p ++ ".backup") (p ++ ".tmp") _ (tmp_ne_backup p),
                  htmp] at hb
                simp only [Option.getD_none] at hb
                rcases buildNewDb_shape hres hb with ⟨hs1, hs2⟩ | ⟨hvtnd, hs1, hs2⟩
                · have hnames : nd.tables.map (fun t => t.name) =
                      d.tables.map (fun t => t.name) := by
                    rw [← names_of_shape, hs1, names_of_shape]
                  have hnd : hasTable nd versionTableName = false := by
                    apply hasTable_false_of_not_mem
                    rw [hnames]
                    exact hvtd
                  rw [recordSchemaVersion_absent hnd] at hrec
                  cases hrec
                  refine Or.inr ⟨?_, ?_, ?_, ?_⟩
                  · subst h1
                    simp only [List.map_append, List.map_cons, List.map_nil]
                    rw [hs1]
                    rfl
                  · subst h1
                    exact hs2
                  · rw [← h2, ← h1, get_set_eq]
                  · rw [← h2]
                    rw [get_set_ne _ p _ _ (tmp_ne_path p)]
                    rw [get_set_ne _ p _ _ (tmp_ne_path p)]
                    exact get_remove_eq _ _
                · have hA : versionTableName ∉
                      (d.tables.map tableShape).map (fun q => q.1) := by
                    rw [names_of_shape]
                    exact hvtd
                  rcases findTable_of_shape hs1 hA with ⟨t, hft, htn, htc⟩
                  rw [recordSchemaVersion_present hft htc] at hrec
                  cases hrec
                  refine Or.inr ⟨?_, ?_, ?_, ?_⟩
                  · subst h1
                    rw [← hs1]
                    exact replaceTable_shape hft rfl
                  · subst h1
                    exact hs2
                  · rw [← h2, ← h1, get_set_eq]
                  · rw [← h2]
                    rw [get_set_ne _ p _ _ (tmp_ne_path p)]
                    rw [get_set_ne _ p _ _ (tmp_ne_path p)]
                    exact get_remove_eq _ _

end AutoSQLite

namespace AutoSQLite

/-- Success characterization of `Migrate`: either the schemas were already
equal (the existing file is returned untouched), or a full migration ran. -/
theorem Migrate_ok {digest : String → String} {env : Env} {s : Schema} {d : Database}
    {p : String} {fs : FS} {tr : List FileOp} {db' : Database} {fs' : FS}
    {tr' : List FileOp}
    (hres : s.result = some d) (hvt : versionTableName ∉ d.objNames)
    (htmp : fs.get (p ++ ".tmp") = none)
    (h : Migrate digest env s p fs tr = (.ok db', fs', tr')) :
    (SchemasEqual s ((fs.get p).getD emptyDb) = true ∧
      db' = (fs.get p).getD emptyDb ∧ fs' = fs) ∨
    (db'.tables.map tableShape = d.tables.map tableShape ++ [tableShape vtTable] ∧
      db'.others = d.others ∧ fs'.get p = some db' ∧
      fs'.get (p ++ ".tmp") = none) := by
  simp only [Migrate] at h
  split at h
  · exact absurd h (by simp)
  · rcases hml : migrateLocked digest env s p fs
        (tr ++ [FileOp.lockAcquired (p ++ ".migration.lock")]) with ⟨r₀, fs₀, tr₀⟩
    rw [hml] at h
    simp only [Prod.mk.injEq] at h
    rcases h with ⟨h1, h2, h3⟩
    rw [h1, h2] at hml
    rcases migrateLocked_ok hres hvt htmp hml with ⟨ha, hb, hc, _⟩ | hr
    · exact Or.inl ⟨ha, hb, hc⟩
    · exact Or.inr hr

/-- Success characterization of `Open`: the live path holds the returned
database, and the candidate schema now compares equal to it. -/
theorem Open_ok {digest : String → String} {env : Env} {s : Schema} {d : Database}
    {p : String} {fs : FS} {tr : List FileOp} {db' : Database} {fs' : FS}
    {tr' : List FileOp}
    (hres : s.result = some d) (hkeys : goodKeys d)
    (hvt : versionTableName ∉ d.objNames)
    (htmp : fs.get (p ++ ".tmp") = none)
    (h : Open digest env s p fs tr = (.ok db', fs', tr')) :
    fs'.get p = some db' ∧ SchemasEqual s db' = true := by
  simp only [Open] at h
  split at h
  · rename_i live hfs
    split at h
    · rename_i hse
      simp only [Prod.mk.injEq, Except.ok.injEq] at h
      rcases h with ⟨h1, h2, _⟩
      subst h1
      rw [← h2]
      exact ⟨hfs, hse⟩
    · rename_i hse
      split at h
      · exact absurd h (by simp)
      · exact absurd h (by simp)
      · rcases Migrate_ok hres hvt htmp h with ⟨ha, _, _⟩ | ⟨_, _, hc, _⟩
        · rw [hfs] at ha
          simp only [Option.getD_some] at ha
          exact absurd ha (by simp [hse])
        · refine ⟨hc, ?_⟩
          rcases Migrate_ok hres hvt htmp h with ⟨ha, _, _⟩ | ⟨hs1, hs2, _, _⟩
          · rw [hfs] at ha
            simp only [Option.getD_some] at ha
            exact absurd ha (by simp [hse])
          · exact schemasEqual_of_shape hres hkeys hvt hs1 hs2
  · rename_i hfs
    split at h
    · rename_i hexec
      rw [execOn_emptyDb, hres] at hexec
      exact absurd hexec (by simp)
    · rename_i d₀ hexec
      rw [execOn_emptyDb, hres] at hexec
      cases hexec
      split at h
      · exact absurd h (by simp)
      · have hvtd : versionTableName ∉ d.tables.map (fun t => t.name) := by
          intro hm
          exact hvt (List.mem_append.mpr (Or.inl hm))
        have hnd : hasTable d versionTableName = false := hasTable_false_of_not_mem hvtd
        rw [recordSchemaVersion_absent hnd] at h
        simp only [Prod.mk.injEq, Except.ok.injEq] at h
        rcases h with ⟨h1, h2, _⟩
        subst h1
        refine ⟨?_, ?_⟩
        · rw [← h2, get_set_eq]
        · exact schemasEqual_vt _ hres hkeys hvt

end AutoSQLite

namespace AutoSQLite

/-! ### Concrete fixtures for witnesses and counterexamples -/

/-- An identity digest standing in for the SHA-256 hex digest in concrete
runs (all general theorems hold for an arbitrary digest). -/
def digest0 : String → String := fun x => x

/-- A one-table database: the result of `CREATE TABLE t (x)`. -/
def dT : Database := ⟨[⟨"t", "CREATE TABLE t (x)", [⟨"x", false, none⟩], []⟩], []⟩

/-- A schema creating the single table `t`. -/
def schT : Schema := ⟨"CREATE TABLE t (x)", some dT⟩

end AutoSQLite

namespace AutoSQLite

/-! ### Claim C10 -/

/-- C10: `SchemasEqual` creates the reserved lineage table
`_autosqlite_version` in the scratch comparison database before executing
the candidate schema text (see the definition of `SchemasEqual`, which
executes the schema into `createVersionTable emptyDb`); consequently, for a
live database consisting of the candidate schema's objects plus the
engine's lineage table with any row content, the presence of the lineage
table never by itself makes the comparison return false, even though the
candidate schema text does not declare that table. -/
theorem C10_schemas_equal_version_table (s : Schema) (d : Database)
    (rs : List (List Cell)) (hres : s.result = some d) (hkeys : goodKeys d)
    (hvt : versionTableName ∉ d.objNames) :
    SchemasEqual s ⟨d.tables ++ [{ vtTable with rows := rs }], d.others⟩ = true :=
  schemasEqual_vt rs hres hkeys hvt

theorem C10_schemas_equal_version_table_witness :
    SchemasEqual schT ⟨dT.tables ++ [{ vtTable with rows :=
      [[Cell.intV 1, Cell.textV "h", Cell.textV "ts", Cell.textV "sql"]] }],
      dT.others⟩ = true :=
  C10_schemas_equal_version_table schT dT _ rfl (by decide) (by decide)

end AutoSQLite

namespace AutoSQLite

/-! ### Claim C3 -/

/-- A schema whose text declares the reserved lineage table itself. -/
def schVt : Schema := ⟨vtCreateSql, some ⟨[vtTable], []⟩⟩

/-- The database produced by a fresh `Open` of `schVt`. -/
def dbVt1 : Database :=
  ⟨[⟨versionTableName, vtCreateSql, vtColumns,
     [[Cell.intV 1, Cell.textV vtCreateSql, Cell.textV benignEnv.now,
       Cell.textV vtCreateSql]]⟩], []⟩

/-- C3 counterexample: for a schema that declares the reserved lineage
table `_autosqlite_version` itself, a second `Open` immediately following a
successful `Open` DOES perform a migration and DOES create a `.backup`
file: the scratch comparison database already contains the lineage table,
so executing the candidate schema into it fails with a name clash,
`SchemasEqual` degrades to false, and the second call takes the full
migration path (its trace contains the backup copy). -/
theorem C3_counterexample :
    (Open digest0 benignEnv schVt "app.db" [] []).1 = .ok dbVt1 ∧
    FileOp.copied "app.db" ("app.db" ++ ".backup") ∈
      (Open digest0 benignEnv schVt "app.db"
        (Open digest0 benignEnv schVt "app.db" [] []).2.1 []).2.2 := by
  constructor
  · rfl
  · decide

/-- C3 (amended): for every schema that does not declare the reserved
lineage table and produces a catalog with distinct `(type, name)` keys, and
with no stale scratch file at `path + ".tmp"`, a second `Open(S, P)`
immediately following a successful `Open(S, P)` opens the existing file
as-is: it returns the same handle, performs no file operation at all (so no
second migration and no `.backup` creation), and leaves the filesystem
unchanged. -/
theorem C3_open_idempotent_amended (digest : String → String) (env : Env) (s : Schema)
    (d : Database) (p : String) (fs : FS) (db₁ : Database) (fs₁ : FS)
    (tr₁ : List FileOp)
    (hres : s.result = some d) (hkeys : goodKeys d)
    (hvt : versionTableName ∉ d.objNames)
    (htmp : fs.get (p ++ ".tmp") = none)
    (h1 : Open digest env s p fs [] = (.ok db₁, fs₁, tr₁)) :
    Open digest env s p fs₁ [] = (.ok db₁, fs₁, []) := by
  rcases Open_ok hres hkeys hvt htmp h1 with ⟨hget, hse⟩
  simp only [Open, hget, hse, if_true]

/-- The database produced by a fresh `Open` of `schT`. -/
def dbT1 : Database :=
  ⟨[⟨"t", "CREATE TABLE t (x)", [⟨"x", false, none⟩], []⟩,
    ⟨versionTableName, vtCreateSql, vtColumns,
     [[Cell.intV 1, Cell.textV "CREATE TABLE t (x)", Cell.textV benignEnv.now,
       Cell.textV "CREATE TABLE t (x)"]]⟩], []⟩

theorem C3_open_idempotent_amended_witness :
    Open digest0 benignEnv schT "app.db"
      (Open digest0 benignEnv schT "app.db" [] []).2.1 [] =
      (.ok dbT1, (Open digest0 benignEnv schT "app.db" [] []).2.1, []) :=
  C3_open_idempotent_amended digest0 benignEnv schT dT "app.db" [] dbT1
    (Open digest0 benignEnv schT "app.db" [] []).2.1
    (Open digest0 benignEnv schT "app.db" [] []).2.2
    rfl (by decide) (by decide) rfl (by rfl)

end AutoSQLite

namespace AutoSQLite

/-! ### Claim C2 -/

end AutoSQLite

namespace AutoSQLite

theorem pickRow_isSome (idx : Nat) (acc : Option (List Cell)) (x : List Cell) :
    ∃ b, pickRow idx acc x = some b := by
  cases acc with
  | none => exact ⟨x, rfl⟩
  | some a =>
      simp only [pickRow]
      by_cases hlt : verKeyCell (a.get? idx) < verKeyCell (x.get? idx)
      · exact ⟨x, by rw [if_pos hlt]⟩
      · exact ⟨a, by rw [if_neg hlt]⟩

theorem pickRow_spec {idx : Nat} {acc : Option (List Cell)} {x b : List Cell}
    (hb : pickRow idx acc x = some b) :
    verKeyCell (x.get? idx) ≤ verKeyCell (b.get? idx) ∧
    (∀ a, acc = some a → verKeyCell (a.get? idx) ≤ verKeyCell (b.get? idx)) ∧
    (acc = some b ∨ b = x) := by
  cases acc with
  | none =>
      simp only [pickRow] at hb
      cases hb
      exact ⟨le_refl _, fun a ha => by simp at ha, Or.inr rfl⟩
  | some a =>
      simp only [pickRow] at hb
      by_cases hlt : verKeyCell (a.get? idx) < verKeyCell (x.get? idx)
      · rw [if_pos hlt] at hb
        cases hb
        refine ⟨le_refl _, ?_, Or.inr rfl⟩
        intro a' ha'
        cases ha'
        exact le_of_lt hlt
      · rw [if_neg hlt] at hb
        cases hb
        refine ⟨not_lt.mp hlt, ?_, Or.inl rfl⟩
        intro a' ha'
        cases ha'
        exact le_refl _

theorem maxRowBy_fold {idx : Nat} :
    ∀ {rows : List (List Cell)} {acc : Option (List Cell)} {r : List Cell},
      rows.foldl (pickRow idx) acc = some r →
      (acc = some r ∨ r ∈ rows) ∧
      (∀ a, acc = some a → verKeyCell (a.get? idx) ≤ verKeyCell (r.get? idx)) ∧
      (∀ r' ∈ rows, verKeyCell (r'.get? idx) ≤ verKeyCell (r.get? idx)) := by
  intro rows
  induction rows with
  | nil =>
      intro acc r h
      simp only [List.foldl_nil] at h
      refine ⟨Or.inl h, ?_, ?_⟩
      · intro a ha
        rw [ha] at h
        cases h
        exact le_refl _
      · intro r' hr'
        simp at hr'
  | cons x xs ih =>
      intro acc r h
      simp only [List.foldl_cons] at h
      rcases ih h with ⟨hmem, hacc, hall⟩
      rcases pickRow_isSome idx acc x with ⟨b, hb⟩
      rcases pickRow_spec hb with ⟨hxb, haccb, hborb⟩
      have hbr : verKeyCell (b.get? idx) ≤ verKeyCell (r.get? idx) := hacc b hb
      refine ⟨?_, ?_, ?_⟩
      · rcases hmem with h1 | h1
        · rw [hb] at h1
          cases h1
          rcases hborb with h2 | h2
          · exact Or.inl h2
          · exact Or.inr (by simp [h2])
        · exact Or.inr (List.mem_cons.mpr (Or.inr h1))
      · intro a ha
        exact le_trans (haccb a ha) hbr
      · intro r' hr'
        rcases List.mem_cons.mp hr' with h1 | h1
        · rw [h1]
          exact le_trans hxb hbr
        · exact hall r' h1

theorem maxRowBy_spec {idx : Nat} {rows : List (List Cell)} {r : List Cell}
    (h : maxRowBy idx rows = some r) :
    r ∈ rows ∧ ∀ r' ∈ rows, verKeyCell (r'.get? idx) ≤ verKeyCell (r.get? idx) := by
  unfold maxRowBy at h
  rcases maxRowBy_fold h with ⟨hmem, _, hall⟩
  rcases hmem with h1 | h1
  · exact absurd h1 (by simp)
  · exact ⟨h1, hall⟩

end AutoSQLite

namespace AutoSQLite

/-- C2 counterexample: a handle whose lineage table exists but holds no
rows (the state left by `DELETE FROM _autosqlite_version`, the downgrade
remedy the source's own error message suggests) is not classified Forward:
`isForwardMigration` returns an error (`row.Scan` yields `sql.ErrNoRows`),
so the migration is neither allowed nor rejected as backward. -/
theorem C2_counterexample :
    isForwardMigration digest0 ⟨[vtTable], []⟩ schT =
      .error "sql: no rows in result set" := by rfl

/-- C2 (amended): classification by `isForwardMigration` behaves as the
claim states on every handle whose lineage state is readable, with one
divergence: a lineage table that exists but holds no rows (or whose
top row cannot be scanned) produces an error instead of Forward.
Specifically: (1) no lineage table → allowed (Forward); (2) lineage table
present but empty → error; (3) candidate hash equal to the current
(highest-version) row's hash → allowed (Identical); (4) otherwise, hash
recorded anywhere in the lineage table → rejected (Backward), hash not
recorded → allowed (Forward); and (5) the current row is a row of the
lineage table with maximal version value. -/
theorem C2_classification_amended (digest : String → String) (db : Database)
    (s : Schema) :
    (findTable db versionTableName = none →
      isForwardMigration digest db s = .ok true) ∧
    (∀ t, findTable db versionTableName = some t → t.rows = [] →
      ∃ e, isForwardMigration digest db s = .error e) ∧
    (∀ cur, getCurrentSchemaVersion db = .ok (some cur) →
      calculateSchemaHash digest s.text = cur.hash →
      isForwardMigration digest db s = .ok true) ∧
    (∀ t i cur, findTable db versionTableName = some t →
      colIdx t.columns "hash" = some i →
      getCurrentSchemaVersion db = .ok (some cur) →
      calculateSchemaHash digest s.text ≠ cur.hash →
      ((∃ r ∈ t.rows, r.get? i = some (Cell.textV (calculateSchemaHash digest s.text))) →
        isForwardMigration digest db s = .ok false) ∧
      ((∀ r ∈ t.rows, r.get? i ≠ some (Cell.textV (calculateSchemaHash digest s.text))) →
        isForwardMigration digest db s = .ok true)) ∧
    (∀ t cur, findTable db versionTableName = some t →
      getCurrentSchemaVersion db = .ok (some cur) →
      ∃ r ∈ t.rows, ∃ j, colIdx t.columns "version" = some j ∧
        decodeVersionRow t.columns r = some cur ∧
        ∀ r' ∈ t.rows, verKeyCell (r'.get? j) ≤ verKeyCell (r.get? j)) := by
  refine ⟨?_, ?_, ?_, ?_, ?_⟩
  · intro hft
    unfold isForwardMigration getCurrentSchemaVersion
    rw [hft]
  · intro t hft hrows
    unfold isForwardMigration getCurrentSchemaVersion
    simp only [hft, hrows]
    cases hci : colIdx t.columns "version" with
    | none =>
        simp only [hci]
        exact ⟨"failed to query current version", rfl⟩
    | some iv =>
        simp only [hci, maxRowBy, List.foldl_nil]
        exact ⟨"sql: no rows in result set", rfl⟩
  · intro cur hcur heq
    unfold isForwardMigration
    simp only [hcur, ← heq]
    simp
  · intro t i cur hft hidx hcur hne
    have hcount : countHashRows db (calculateSchemaHash digest s.text) =
        some ((t.rows.filter (fun r =>
          r.get? i == some (Cell.textV (calculateSchemaHash digest s.text)))).length) := by
      unfold countHashRows
      simp only [hft, hidx]
    constructor
    · intro ⟨r, hrmem, hrget⟩
      unfold isForwardMigration
      simp only [hcur]
      rw [if_neg (fun he => hne he.symm)]
      simp only [hcount]
      have hpos : 0 < (t.rows.filter (fun r =>
          r.get? i == some (Cell.textV (calculateSchemaHash digest s.text)))).length := by
        apply List.length_pos.mpr
        intro hemp
        have hmf : r ∈ t.rows.filter (fun r =>
            r.get? i == some (Cell.textV (calculateSchemaHash digest s.text))) :=
          List.mem_filter.mpr ⟨hrmem, by simpa using hrget⟩
        rw [hemp] at hmf
        simp at hmf
      rw [if_pos hpos]
    · intro hall
      unfold isForwardMigration
      simp only [hcur]
      rw [if_neg (fun he => hne he.symm)]
      simp only [hcount]
      have hzero : (t.rows.filter (fun r =>
          r.get? i == some (Cell.textV (calculateSchemaHash digest s.text)))).length = 0 := by
        rw [List.length_eq_zero, List.filter_eq_nil_iff]
        intro r hrmem
        simp only [beq_iff_eq]
        exact fun he => hall r hrmem (by simpa using he)
      rw [hzero]
      simp
  · intro t cur hft hcur
    unfold getCurrentSchemaVersion at hcur
    simp only [hft] at hcur
    cases hci : colIdx t.columns "version" with
    | none =>
        simp only [hci] at hcur
        exact absurd hcur (by simp)
    | some iv =>
        simp only [hci] at hcur
        cases hmr : maxRowBy iv t.rows with
        | none =>
            simp only [hmr] at hcur
            exact absurd hcur (by simp)
        | some r =>
            simp only [hmr] at hcur
            cases hdec : decodeVersionRow t.columns r with
            | none =>
                simp only [hdec] at hcur
                exact absurd hcur (by simp)
            | some v =>
                simp only [hdec] at hcur
                simp only [Except.ok.injEq, Option.some.injEq] at hcur
                subst hcur
                rcases maxRowBy_spec hmr with ⟨hmem, hmax⟩
                exact ⟨r, hmem, iv, rfl, hdec, hmax⟩

theorem C2_classification_amended_witness :
    isForwardMigration digest0 dT schT = .ok true :=
  (C2_classification_amended digest0 dT schT).1 rfl

end AutoSQLite

namespace AutoSQLite

theorem mapVals_isSome {f : String → Option Cell} :
    ∀ {l : List String}, (∀ c ∈ l, (f c).isSome = true) → ∃ vs, mapVals f l = some vs := by
  intro l
  induction l with
  | nil => intro _; exact ⟨[], rfl⟩
  | cons c cs ih =>
      intro hall
      rcases Option.isSome_iff_exists.mp (hall c (by simp)) with ⟨v, hv⟩
      rcases ih (fun c' hc' => hall c' (by simp [hc'])) with ⟨vs, hvs⟩
      exact ⟨v :: vs, by simp only [mapVals, hv, hvs]⟩

theorem colIdx_lt_length {cols : List Column} {c : String} {i : Nat}
    (h : colIdx cols c = some i) : i < cols.length := by
  rcases colIdx_get h with ⟨col, hget, _⟩
  exact (List.get?_eq_some.mp hget).1

theorem projectRow_isSome {cols : List Column} {common : List String} {r : List Cell}
    (hsub : ∀ c ∈ common, (colIdx cols c).isSome = true)
    (hlen : cols.length ≤ r.length) :
    ∃ vals, projectRow cols common r = some vals := by
  apply mapVals_isSome
  intro c hc
  rcases Option.isSome_iff_exists.mp (hsub c hc) with ⟨i, hi⟩
  rw [hi]
  have hil : i < r.length := lt_of_lt_of_le (colIdx_lt_length hi) hlen
  simp only [Option.some_bind]
  rcases List.get?_eq_get hil with hg
  rw [hg]
  rfl

end AutoSQLite

namespace AutoSQLite

/-- Inserting a row that does not name a NOT NULL column with no declared
default always violates the constraint: the engine substitutes NULL and the
NOT NULL check fails. -/
theorem insertRow_missing_notNull {t : TableData} {cols : List String}
    {vals : List Cell} {col : Column} (hmem : col ∈ t.columns)
    (hnn : col.notNull = true) (hdf : col.dflt = none) (hnot : col.name ∉ cols) :
    insertRow t cols vals = none := by
  unfold insertRow
  split
  · cases hmc : mapCells (cellFor cols vals) t.columns with
    | none => simp only [hmc]
    | some r =>
        simp only [hmc]
        rcases List.get?_of_mem hmem with ⟨i, hi⟩
        have hcf : cellFor cols vals col = some Cell.null := by
          unfold cellFor
          have hfi : cols.findIdx? (fun c => c = col.name) = none := by
            rw [List.findIdx?_eq_none_iff]
            intro c hc
            simp only [decide_eq_false_iff_not]
            exact fun he => hnot (he ▸ hc)
          rw [hfi, hdf]
        have hr : r.get? i = some Cell.null := by
          rw [mapCells_get? hmc hi, hcf]
        have hz : (t.columns.zip r).get? i = some (col, Cell.null) :=
          (List.get?_zip_eq_some _ _ _ _).mpr ⟨hi, hr⟩
        have hmemz : (col, Cell.null) ∈ t.columns.zip r := List.get?_mem hz
        have hfalse : ((t.columns.zip r).all
            (fun q => !(q.1.notNull && q.2 == Cell.null))) = false := by
          rw [List.all_eq_false]
          exact ⟨(col, Cell.null), hmemz, by simp [hnn]⟩
        rw [hfalse]
        simp
  · rfl

/-- C4 (amended): when the candidate schema adds to an existing table a
NOT NULL column with no declared default and the old table holds at least
one (well-formed, yielded) row with a nonempty column intersection, the
failure does NOT occur at the table's schema-application step (which
succeeds against the empty scratch database, as the counterexample shows):
it occurs during the data copy, at the first row insert, with a constraint
error; the per-table transaction is rolled back (no row is committed — the
error return carries no updated table) and the error aborts the migration. -/
theorem C4_notnull_constraint_amended {env : Env} {oldDB newDB : Database}
    {tn : String} {ot nt : TableData} {col : Column}
    (hot : findTable oldDB tn = some ot) (hnt : findTable newDB tn = some nt)
    (hcol : col ∈ nt.columns) (hnn : col.notNull = true) (hdf : col.dflt = none)
    (hnotold : col.name ∉ ot.columns.map (fun c => c.name))
    (hcommon : FindCommonColumns (GetColumns oldDB tn) (GetColumns newDB tn) ≠ [])
    (hyield : yieldRows env tn ot.rows ≠ [])
    (hlen : ∀ r ∈ ot.rows, ot.columns.length ≤ r.length) :
    MigrateTable env oldDB newDB tn = .error "constraint failed on insert" := by
  have hold : GetColumns oldDB tn = ot.columns.map (fun c => c.name) := by
    unfold GetColumns
    rw [hot]
  have hnotc : col.name ∉ FindCommonColumns (GetColumns oldDB tn) (GetColumns newDB tn) := by
    intro hmem2
    unfold FindCommonColumns at hmem2
    have := (List.mem_filter.mp hmem2).2
    rw [hold] at this
    exact hnotold (by simpa using this)
  simp only [MigrateTable]
  rw [if_neg hcommon]
  simp only [hot, hnt]
  cases hy : yieldRows env tn ot.rows with
  | nil => exact absurd hy hyield
  | cons r rest =>
      have hrmem : r ∈ ot.rows := by
        have hsub : yieldRows env tn ot.rows ⊆ ot.rows := by
          unfold yieldRows
          cases env.readErrAfter tn with
          | none => exact fun a ha => ha
          | some n => exact List.take_subset n ot.rows
        exact hsub (by rw [hy]; simp)
      have hcsub : ∀ c ∈ FindCommonColumns (GetColumns oldDB tn) (GetColumns newDB tn),
          (colIdx ot.columns c).isSome = true := by
        intro c hc
        have hcold : c ∈ GetColumns oldDB tn := by
          unfold FindCommonColumns at hc
          have := (List.mem_filter.mp hc).2
          simpa using this
        rw [hold] at hcold
        rcases List.mem_map.mp hcold with ⟨cl, hclmem, hcln⟩
        cases hci : colIdx ot.columns c with
        | none =>
            unfold colIdx at hci
            rw [List.findIdx?_eq_none_iff] at hci
            have := hci cl hclmem
            simp [hcln] at this
        | some j => rfl
      rcases projectRow_isSome hcsub (hlen r hrmem) with ⟨vals, hp⟩
      unfold copyRows
      simp only [hp]
      rw [insertRow_missing_notNull hcol hnn hdf hnotc]

end AutoSQLite

namespace AutoSQLite

/-! ### Claim C4 -/

/-- The old `users(id, name)` table with one row. -/
def tC4old : TableData :=
  ⟨"users", "CREATE TABLE users (id INTEGER PRIMARY KEY, name TEXT)",
   [⟨"id", false, none⟩, ⟨"name", false, none⟩],
   [[Cell.intV 1, Cell.textV "alice"]]⟩

/-- The new `users(id, name, email TEXT NOT NULL)` table (no default). -/
def tC4new : TableData :=
  ⟨"users", "CREATE TABLE users (id INTEGER PRIMARY KEY, name TEXT, email TEXT NOT NULL)",
   [⟨"id", false, none⟩, ⟨"name", false, none⟩, ⟨"email", true, none⟩], []⟩

/-- The old database for the NOT NULL scenario. -/
def dC4old : Database := ⟨[tC4old], []⟩

/-- The new catalog for the NOT NULL scenario. -/
def dC4new : Database := ⟨[tC4new], []⟩

/-- The candidate schema adding the NOT NULL `email` column. -/
def schC4 : Schema :=
  ⟨"CREATE TABLE users (id INTEGER PRIMARY KEY, name TEXT, email TEXT NOT NULL)",
   some dC4new⟩

/-- C4 counterexample: the claim locates the failure at the table's
schema-application step, before any copy is attempted.  In fact the schema
applies cleanly to the empty scratch database (first conjunct), and the
migration then fails during the data copy with the constraint error from
the first row insert (second conjunct). -/
theorem C4_counterexample :
    execOn emptyDb schC4 = some dC4new ∧
    (MigrateToNewFile benignEnv schC4 "app.db" ("app.db" ++ ".tmp")
      [("app.db", dC4old)] []).1 = .error "constraint failed on insert" :=
  ⟨rfl, rfl⟩

theorem C4_notnull_constraint_amended_witness :
    MigrateTable benignEnv dC4old dC4new "users" =
      .error "constraint failed on insert" :=
  @C4_notnull_constraint_amended benignEnv dC4old dC4new "users" tC4old tC4new
    ⟨"email", true, none⟩ rfl rfl (by decide) rfl rfl (by decide) (by decide)
    (by decide) (by decide)

end AutoSQLite

namespace AutoSQLite

/-! ### Claim C9 -/

theorem insertRow_rows {t t' : TableData} {cols : List String} {vals : List Cell}
    (h : insertRow t cols vals = some t') : ∃ r, t'.rows = t.rows ++ [r] := by
  unfold insertRow at h
  split at h
  · split at h
    · exact absurd h (by simp)
    · rename_i r hmc
      split at h
      · cases h
        exact ⟨r, rfl⟩
      · exact absurd h (by simp)
  · exact absurd h (by simp)

theorem copyRows_length {common : List String} {oldCols : List Column} :
    ∀ {rows : List (List Cell)} {t t' : TableData},
      copyRows common oldCols t rows = .ok t' →
      t'.rows.length = t.rows.length + rows.length := by
  intro rows
  induction rows with
  | nil =>
      intro t t' h
      unfold copyRows at h
      cases h
      simp
  | cons r rest ih =>
      intro t t' h
      unfold copyRows at h
      split at h
      · exact absurd h (by simp)
      · rename_i vals hproj
        split at h
        · exact absurd h (by simp)
        · rename_i t₂ hins
          have h1 := ih h
          rcases insertRow_rows hins with ⟨rr, hrr⟩
          rw [hrr] at h1
          simp only [List.length_append, List.length_cons, List.length_nil] at h1 ⊢
          omega

/-- C9 (amended): the per-table copy uses exactly the columns present in
both tables, ordered as in the new schema's column list
(`FindCommonColumns` is the new-order filter of names also present in the
old table); when the intersection is empty the copy is a successful no-op;
and on success all yielded rows are committed in one step — the rows the
driver actually yields, which on an iteration-ending read error
(`rows.Err` is never consulted) is a truncated prefix that the source
commits instead of rolling back (see the counterexample). -/
theorem C9_common_copy_amended (env : Env) (oldDB newDB : Database) (tn : String)
    (oldCols newCols : List String) :
    (∀ c, c ∈ FindCommonColumns oldCols newCols ↔ c ∈ newCols ∧ c ∈ oldCols) ∧
    ((FindCommonColumns oldCols newCols).Sublist newCols) ∧
    (FindCommonColumns (GetColumns oldDB tn) (GetColumns newDB tn) = [] →
      MigrateTable env oldDB newDB tn = .ok newDB) ∧
    (∀ nd', MigrateTable env oldDB newDB tn = .ok nd' →
      FindCommonColumns (GetColumns oldDB tn) (GetColumns newDB tn) ≠ [] →
      ∃ ot nt nt', findTable oldDB tn = some ot ∧ findTable newDB tn = some nt ∧
        nd' = newDB.withTable tn nt' ∧
        nt'.rows.length = nt.rows.length + (yieldRows env tn ot.rows).length) := by
  refine ⟨?_, ?_, ?_, ?_⟩
  · intro c
    unfold FindCommonColumns
    rw [List.mem_filter]
    constructor
    · rintro ⟨h1, h2⟩
      exact ⟨h1, by simpa using h2⟩
    · rintro ⟨h1, h2⟩
      exact ⟨h1, by simpa using h2⟩
  · exact List.filter_sublist _
  · intro hemp
    simp only [MigrateTable]
    rw [if_pos hemp]
  · intro nd' hok hne
    simp only [MigrateTable] at hok
    rw [if_neg hne] at hok
    split at hok
    · rename_i ot nt hot hnt
      split at hok
      · exact absurd hok (by simp)
      · rename_i nt' hcopy
        simp only [Except.ok.injEq] at hok
        exact ⟨ot, nt, nt', hot, hnt, hok.symm, copyRows_length hcopy⟩
    · exact absurd hok (by simp)

/-- An environment whose row iteration over table `t` ends in a driver
error after yielding one row. -/
def envRE : Env :=
  ⟨false, false, false, false, "2024-01-01 00:00:00",
   fun tn => if tn = "t" then some 1 else none⟩

/-- C9 counterexample: with a read error ending iteration after one of two
rows, `MigrateTable` commits the truncated one-row copy and returns
success — the claim requires any read error to roll the transaction back,
but `rows.Err` is never checked. -/
theorem C9_counterexample :
    MigrateTable envRE
      ⟨[⟨"t", "CREATE TABLE t (x)", [⟨"x", false, none⟩],
         [[Cell.intV 1], [Cell.intV 2]]⟩], []⟩
      ⟨[⟨"t", "CREATE TABLE t (x)", [⟨"x", false, none⟩], []⟩], []⟩ "t" =
      .ok ⟨[⟨"t", "CREATE TABLE t (x)", [⟨"x", false, none⟩],
            [[Cell.intV 1]]⟩], []⟩ := by rfl

theorem C9_common_copy_amended_witness :
    MigrateTable benignEnv dT dT "users" = .ok dT :=
  (C9_common_copy_amended benignEnv dT dT "users" [] []).2.2.1 rfl

end AutoSQLite

namespace AutoSQLite

/-- The lineage table of `db` holds a row whose hash column equals `h`. -/
def hasLineageRow (db : Database) (h : String) : Prop :=
  ∃ t, findTable db versionTableName = some t ∧
    ∃ i, colIdx t.columns "hash" = some i ∧
      ∃ r ∈ t.rows, r.get? i = some (Cell.textV h)

theorem recordSchemaVersion_hasRow {db db2 : Database} {v : Int} {h now txt : String}
    (hrec : recordSchemaVersion db v h now txt = some db2) : hasLineageRow db2 h := by
  simp only [recordSchemaVersion, insertNamed] at hrec
  split at hrec
  · exact Option.noConfusion hrec
  · rename_i t hft
    split at hrec
    · exact Option.noConfusion hrec
    · rename_i t' hins
      rw [Option.some.injEq] at hrec
      subst hrec
      have htn : t.name = versionTableName := by
        have h0 := List.find?_some hft
        simpa using h0
      unfold insertRow at hins
      split at hins
      · rename_i hall
        split at hins
        · exact Option.noConfusion hins
        · rename_i rr hmc
          split at hins
          · rw [Option.some.injEq] at hins
            subst hins
            have hhash : (colIdx t.columns "hash").isSome = true := by
              have h1 := List.all_eq_true.mp hall "hash" (by simp)
              simpa using h1
            rcases Option.isSome_iff_exists.mp hhash with ⟨i, hi⟩
            rcases colIdx_get hi with ⟨col, hgi, hcoln⟩
            have hcell : rr.get? i = some (Cell.textV h) := by
              rw [mapCells_get? hmc hgi]
              unfold cellFor
              rw [hcoln]
              rfl
            exact ⟨_, findTable_replaceTable hft htn, i, hi, rr, by simp, hcell⟩
          · exact Option.noConfusion hins
      · exact Option.noConfusion hins

theorem execOn_result_ne_none {base : Database} {s : Schema} {nd : Database}
    (h : execOn base s = some nd) : s.result ≠ none := by
  intro hres
  unfold execOn at h
  rw [hres] at h
  exact absurd h (by simp)

end AutoSQLite

namespace AutoSQLite

theorem buildNewDb_result {env : Env} {s : Schema} {oldDB base nd : Database}
    (h : buildNewDb env s oldDB base = .ok nd) : s.result ≠ none := by
  unfold buildNewDb at h
  split at h
  · exact absurd h (by simp)
  · rename_i nd0 heq
    exact execOn_result_ne_none heq

theorem migrateLocked_tmp {digest : String → String} {env : Env} {s : Schema}
    {p : String} {fs : FS} {tr : List FileOp} {r : Except String Database} {fs' : FS}
    {tr' : List FileOp}
    (htmp : fs.get (p ++ ".tmp") = none) (hrn : env.renameFails = false)
    (h : migrateLocked digest env s p fs tr = (r, fs', tr')) :
    fs'.get (p ++ ".tmp") = none := by
  simp only [migrateLocked] at h
  split at h
  · cases h; exact htmp
  · split at h
    · cases h; exact htmp
    · cases h; exact htmp
    · split at h
      · cases h; exact htmp
      · split at h
        · rename_i e fs2 tr2 hmtnf
          cases h
          rcases MigrateToNewFile_error hmtnf with ⟨hfs2, _⟩
          rw [hfs2]
          exact get_remove_eq _ _
        · rename_i nd fs2 tr2 hmtnf
          split at h
          · rename_i hrf
            rw [hrn] at hrf
            exact absurd hrf (by simp)
          · split at h
            · cases h
              rw [get_set_ne _ p _ _ (tmp_ne_path p)]
              exact get_remove_eq _ _
            · split at h
              · cases h
                rw [get_set_ne _ p _ _ (tmp_ne_path p)]
                exact get_remove_eq _ _
              · cases h
                rw [get_set_ne _ p _ _ (tmp_ne_path p)]
                rw [get_set_ne _ p _ _ (tmp_ne_path p)]
                exact get_remove_eq _ _

theorem migrateLocked_error_nocutover {digest : String → String} {env : Env} {s : Schema}
    {p : String} {fs : FS} {tr : List FileOp} {e : String} {fs' : FS} {tr' : List FileOp}
    (h : migrateLocked digest env s p fs tr = (.error e, fs', tr'))
    (hrn : FileOp.renamed (p ++ ".tmp") p ∉ tr') :
    fs'.get p = fs.get p := by
  simp only [migrateLocked] at h
  split at h
  · exact absurd h (by simp)
  · split at h
    · cases h; rfl
    · cases h; rfl
    · split at h
      · cases h; rfl
      · split at h
        · rename_i e0 fs2 tr2 hmtnf
          cases h
          rcases MigrateToNewFile_error hmtnf with ⟨hfs2, _⟩
          rw [hfs2]
          rw [get_remove_ne _ _ _ (path_ne_tmp p)]
          exact get_set_ne _ _ _ _ (path_ne_backup p)
        · rename_i nd fs2 tr2 hmtnf
          split at h
          · cases h
            rcases MigrateToNewFile_ok hmtnf with ⟨_, hfs2, _⟩
            rw [hfs2]
            rw [get_set_ne _ _ _ _ (path_ne_tmp p)]
            exact get_set_ne _ _ _ _ (path_ne_backup p)
          · split at h
            · cases h
              exact absurd (List.mem_append.mpr (Or.inr (by simp))) hrn
            · split at h
              · cases h
                exact absurd (List.mem_append.mpr (Or.inr (by simp))) hrn
              · exact absurd h (by simp)

theorem migrateLocked_ok_cutover {digest : String → String} {env : Env} {s : Schema}
    {p : String} {fs : FS} {tr : List FileOp} {db' : Database} {fs' : FS}
    {tr' : List FileOp}
    (h : migrateLocked digest env s p fs tr = (.ok db', fs', tr')) :
    (db' = (fs.get p).getD emptyDb ∧ fs' = fs ∧ tr' = tr) ∨
    (FileOp.copied p (p ++ ".backup") ∈ tr' ∧ FileOp.renamed (p ++ ".tmp") p ∈ tr' ∧
      s.result ≠ none ∧ fs'.get p = some db' ∧
      hasLineageRow db' (calculateSchemaHash digest s.text)) := by
  simp only [migrateLocked] at h
  split at h
  · simp only [Prod.mk.injEq, Except.ok.injEq] at h
    rcases h with ⟨h1, h2, h3⟩
    exact Or.inl ⟨h1.symm, h2.symm, h3.symm⟩
  · split at h
    · exact absurd h (by simp)
    · exact absurd h (by simp)
    · split at h
      · exact absurd h (by simp)
      · split at h
        · exact absurd h (by simp)
        · rename_i nd fs2 tr2 hmtnf
          split at h
          · exact absurd h (by simp)
          · split at h
            · exact absurd h (by simp)
            · split at h
              · exact absurd h (by simp)
              · rename_i nd2 hrec
                simp only [Prod.mk.injEq, Except.ok.injEq] at h
                rcases h with ⟨h1, h2, h3⟩
                rcases MigrateToNewFile_ok hmtnf with ⟨hb, hfs2, htr2⟩
                refine Or.inr ⟨?_, ?_, buildNewDb_result hb, ?_, ?_⟩
                · rw [← h3, htr2]
                  exact List.mem_append.mpr (Or.inl (List.mem_append.mpr
                    (Or.inl (List.mem_append.mpr (Or.inr (by simp))))))
                · rw [← h3]
                  exact List.mem_append.mpr (Or.inr (by simp))
                · rw [← h2, ← h1, get_set_eq]
                · rw [← h1]
                  exact recordSchemaVersion_hasRow hrec

end AutoSQLite

namespace AutoSQLite

theorem migrateLocked_trace {digest : String → String} {env : Env} {s : Schema}
    {p : String} {fs : FS} {tr : List FileOp} {r : Except String Database} {fs' : FS}
    {tr' : List FileOp}
    (h : migrateLocked digest env s p fs tr = (r, fs', tr')) :
    ∀ op ∈ tr', op ∈ tr ∨ op = FileOp.copied p (p ++ ".backup") ∨
      op = FileOp.removed (p ++ ".tmp") ∨ op = FileOp.created (p ++ ".tmp") ∨
      op = FileOp.renamed (p ++ ".tmp") p := by
  simp only [migrateLocked] at h
  split at h
  · cases h; intro op hop; exact Or.inl hop
  · split at h
    · cases h; intro op hop; exact Or.inl hop
    · cases h; intro op hop; exact Or.inl hop
    · split at h
      · cases h; intro op hop; exact Or.inl hop
      · split at h
        · rename_i e0 fs2 tr2 hmtnf
          cases h
          rcases MigrateToNewFile_error hmtnf with ⟨_, htr2⟩
          intro op hop
          rw [htr2] at hop
          simp only [List.mem_append, List.mem_singleton] at hop
          tauto
        · rename_i nd fs2 tr2 hmtnf
          rcases MigrateToNewFile_ok hmtnf with ⟨_, _, htr2⟩
          split at h
          · cases h
            intro op hop
            rw [htr2] at hop
            simp only [List.mem_append, List.mem_singleton] at hop
            tauto
          · have htr3 : ∀ op ∈ tr2 ++ [FileOp.renamed (p ++ ".tmp") p],
                op ∈ tr ∨ op = FileOp.copied p (p ++ ".backup") ∨
                op = FileOp.removed (p ++ ".tmp") ∨ op = FileOp.created (p ++ ".tmp") ∨
                op = FileOp.renamed (p ++ ".tmp") p := by
              intro op hop
              rw [htr2] at hop
              simp only [List.mem_append, List.mem_singleton] at hop
              tauto
            split at h
            · cases h; exact htr3
            · split at h
              · cases h; exact htr3
              · cases h; exact htr3

end AutoSQLite

namespace AutoSQLite

theorem Migrate_tmp {digest : String → String} {env : Env} {s : Schema} {p : String}
    {fs : FS} {tr : List FileOp} {r : Except String Database} {fs' : FS}
    {tr' : List FileOp}
    (htmp : fs.get (p ++ ".tmp") = none) (hrn : env.renameFails = false)
    (h : Migrate digest env s p fs tr = (r, fs', tr')) :
    fs'.get (p ++ ".tmp") = none := by
  simp only [Migrate] at h
  split at h
  · cases h; exact htmp
  · rcases hml : migrateLocked digest env s p fs
        (tr ++ [FileOp.lockAcquired (p ++ ".migration.lock")]) with ⟨r₀, fs₀, tr₀⟩
    rw [hml] at h
    simp only [Prod.mk.injEq] at h
    rcases h with ⟨h1, h2, h3⟩
    rw [h1, h2] at hml
    exact migrateLocked_tmp htmp hrn hml

theorem Open_tmp {digest : String → String} {env : Env} {s : Schema} {p : String}
    {fs : FS} {tr : List FileOp} {r : Except String Database} {fs' : FS}
    {tr' : List FileOp}
    (htmp : fs.get (p ++ ".tmp") = none) (hrn : env.renameFails = false)
    (h : Open digest env s p fs tr = (r, fs', tr')) :
    fs'.get (p ++ ".tmp") = none := by
  simp only [Open] at h
  split at h
  · split at h
    · cases h; exact htmp
    · split at h
      · cases h; exact htmp
      · cases h; exact htmp
      · exact Migrate_tmp htmp hrn h
  · split at h
    · cases h
      rw [get_set_ne _ _ _ _ (tmp_ne_path p)]
      exact htmp
    · split at h
      · cases h
        rw [get_set_ne _ _ _ _ (tmp_ne_path p)]
        rw [get_set_ne _ _ _ _ (tmp_ne_path p)]
        exact htmp
      · split at h
        · cases h
          rw [get_set_ne _ _ _ _ (tmp_ne_path p)]
          rw [get_set_ne _ _ _ _ (tmp_ne_path p)]
          exact htmp
        · cases h
          rw [get_set_ne _ _ _ _ (tmp_ne_path p)]
          rw [get_set_ne _ _ _ _ (tmp_ne_path p)]
          exact htmp

end AutoSQLite

namespace AutoSQLite

/-! ### Claim C5 -/

/-- A one-table database holding table `u`, as a migration source. -/
def dU : Database := ⟨[⟨"u", "CREATE TABLE u (y)", [⟨"y", false, none⟩], []⟩], []⟩

/-- An environment in which only the cutover rename fails. -/
def envRF : Env :=
  ⟨false, false, true, false, "2024-01-01 00:00:00", fun _ => none⟩

/-- C5 counterexample: when the cutover rename itself fails, `Migrate`
returns the rename error but leaves the fully built scratch database behind
at `path ++ ".tmp"` — the source's error return skips both the rename and
any cleanup of the scratch file, so a file does exist at `path ++ ".tmp"`
after the call, contradicting the claim's "including a failed cutover
rename" case. -/
theorem C5_counterexample :
    (Migrate digest0 envRF schT "app.db" [("app.db", dU)] []).1 =
      Except.error "failed to rename new database" ∧
    (Migrate digest0 envRF schT "app.db" [("app.db", dU)] []).2.1.get
      ("app.db" ++ ".tmp") = some dT :=
  ⟨rfl, rfl⟩

/-- C5 (amended): after `Migrate` or `Open` returns — with success or with
any error — no file remains at `path ++ ".tmp"`, provided no stale scratch
file pre-existed and the cutover rename is not the step that fails; when
the rename itself fails the scratch file is leaked (see the
counterexample), so the claim holds only outside that case. -/
theorem C5_no_tmp_amended (digest : String → String) (env : Env) (s : Schema)
    (p : String) (fs : FS)
    (htmp : fs.get (p ++ ".tmp") = none) (hrn : env.renameFails = false) :
    (∀ r fs' tr', Migrate digest env s p fs [] = (r, fs', tr') →
      fs'.get (p ++ ".tmp") = none) ∧
    (∀ r fs' tr', Open digest env s p fs [] = (r, fs', tr') →
      fs'.get (p ++ ".tmp") = none) :=
  ⟨fun _ _ _ h => Migrate_tmp htmp hrn h, fun _ _ _ h => Open_tmp htmp hrn h⟩

/-- C5 witness: the amended theorem at a concrete migration, where the
scratch file is indeed gone after the call. -/
theorem C5_no_tmp_amended_witness :
    (Migrate digest0 benignEnv schT "app.db" [("app.db", dU)] []).2.1.get
      ("app.db" ++ ".tmp") = none :=
  (C5_no_tmp_amended digest0 benignEnv schT "app.db" [("app.db", dU)] rfl rfl).1
    (Migrate digest0 benignEnv schT "app.db" [("app.db", dU)] []).1
    (Migrate digest0 benignEnv schT "app.db" [("app.db", dU)] []).2.1
    (Migrate digest0 benignEnv schT "app.db" [("app.db", dU)] []).2.2 rfl

end AutoSQLite

namespace AutoSQLite

/-! ### Claim C6 -/

/-- C6 counterexample: a `Migrate` whose cutover rename fails returns the
rename error, and its complete file-operation trace contains no copy or
rename from `path ++ ".backup"` back onto `path` — no restoration from the
backup is ever attempted, contradicting the claim's "best-effort
restoration" case. -/
theorem C6_counterexample :
    (Migrate digest0 envRF schT "app.db" [("app.db", dU)] []).1 =
      Except.error "failed to rename new database" ∧
    (Migrate digest0 envRF schT "app.db" [("app.db", dU)] []).2.2 =
      [FileOp.lockAcquired ("app.db" ++ ".migration.lock"),
       FileOp.copied "app.db" ("app.db" ++ ".backup"),
       FileOp.created ("app.db" ++ ".tmp"),
       FileOp.lockReleased ("app.db" ++ ".migration.lock"),
       FileOp.removed ("app.db" ++ ".migration.lock")] :=
  ⟨rfl, rfl⟩

/-- C6 (amended): the backup file is never used automatically: no file
operation of any `Migrate` call — in particular not one whose cutover
rename fails — copies or renames `path ++ ".backup"` onto `path`. -/
theorem C6_no_restore_amended (digest : String → String) (env : Env) (s : Schema)
    (p : String) (fs : FS) (r : Except String Database) (fs' : FS)
    (tr' : List FileOp) (op : FileOp)
    (h : Migrate digest env s p fs [] = (r, fs', tr')) (hop : op ∈ tr') :
    op ≠ FileOp.copied (p ++ ".backup") p ∧ op ≠ FileOp.renamed (p ++ ".backup") p := by
  simp only [Migrate] at h
  split at h
  · cases h
    exact absurd hop (List.not_mem_nil op)
  · rcases hml : migrateLocked digest env s p fs
        ([] ++ [FileOp.lockAcquired (p ++ ".migration.lock")]) with ⟨r₀, fs₀, tr₀⟩
    rw [hml] at h
    simp only [Prod.mk.injEq] at h
    rcases h with ⟨h1, h2, h3⟩
    rw [← h3] at hop
    rcases List.mem_append.mp hop with hin | hin
    · rcases migrateLocked_trace hml op hin with hin2 | h0 | h0 | h0 | h0
      · simp only [List.nil_append, List.mem_singleton] at hin2
        subst hin2
        exact ⟨fun hc => FileOp.noConfusion hc, fun hc => FileOp.noConfusion hc⟩
      · subst h0
        refine ⟨fun hc => ?_, fun hc => FileOp.noConfusion hc⟩
        injection hc with ha hb
        exact path_ne_backup p ha
      · subst h0
        exact ⟨fun hc => FileOp.noConfusion hc, fun hc => FileOp.noConfusion hc⟩
      · subst h0
        exact ⟨fun hc => FileOp.noConfusion hc, fun hc => FileOp.noConfusion hc⟩
      · subst h0
        refine ⟨fun hc => FileOp.noConfusion hc, fun hc => ?_⟩
        injection hc with ha hb
        exact tmp_ne_backup p ha
    · simp only [List.mem_cons, List.mem_singleton, List.not_mem_nil, or_false] at hin
      rcases hin with h0 | h0
      · subst h0
        exact ⟨fun hc => FileOp.noConfusion hc, fun hc => FileOp.noConfusion hc⟩
      · subst h0
        exact ⟨fun hc => FileOp.noConfusion hc, fun hc => FileOp.noConfusion hc⟩

/-- C6 witness: the amended theorem at a concrete trace entry of a concrete
migration. -/
theorem C6_no_restore_amended_witness :
    FileOp.lockAcquired ("app.db" ++ ".migration.lock") ≠
      FileOp.copied ("app.db" ++ ".backup") "app.db" ∧
    FileOp.lockAcquired ("app.db" ++ ".migration.lock") ≠
      FileOp.renamed ("app.db" ++ ".backup") "app.db" :=
  C6_no_restore_amended digest0 benignEnv schT "app.db" [("app.db", dU)]
    (Migrate digest0 benignEnv schT "app.db" [("app.db", dU)] []).1
    (Migrate digest0 benignEnv schT "app.db" [("app.db", dU)] []).2.1
    (Migrate digest0 benignEnv schT "app.db" [("app.db", dU)] []).2.2
    (FileOp.lockAcquired ("app.db" ++ ".migration.lock")) rfl (by decide)

end AutoSQLite

namespace AutoSQLite

/-! ### Claim C7 -/

/-- A syntactically invalid schema text: executing it fails. -/
def schBad : Schema := ⟨"CREATE TABLE (", none⟩

/-- C7 counterexample: opening a nonexistent path with a schema whose
execution fails returns the error, but the freshly created empty database
file is left behind at `path` — the source has no delete-on-failure, so a
half-initialized file remains, contradicting the claim. -/
theorem C7_counterexample :
    (Open digest0 benignEnv schBad "app.db" [] []).1 =
      Except.error "failed to execute schema" ∧
    (Open digest0 benignEnv schBad "app.db" [] []).2.1.get "app.db" = some emptyDb :=
  ⟨rfl, rfl⟩

/-- C7 (amended): for every `Open` of a nonexistent path whose schema
execution fails, the call returns the schema-execution error and leaves the
newly created empty database file in place at `path` (it is not deleted on
failure). -/
theorem C7_create_fresh_amended (digest : String → String) (env : Env) (s : Schema)
    (p : String) (fs : FS) (tr : List FileOp)
    (hfs : fs.get p = none) (hres : s.result = none) :
    Open digest env s p fs tr =
      (Except.error "failed to execute schema", fs.set p emptyDb,
       tr ++ [FileOp.created p]) := by
  have hex : execOn emptyDb s = none := by
    unfold execOn
    rw [hres]
  simp only [Open, hfs, hex]

/-- C7 witness: the amended theorem at a concrete failing fresh open. -/
theorem C7_create_fresh_amended_witness :
    Open digest0 benignEnv schBad "app.db" ([] : FS) [] =
      (Except.error "failed to execute schema", FS.set ([] : FS) "app.db" emptyDb,
       ([] : List FileOp) ++ [FileOp.created "app.db"]) :=
  C7_create_fresh_amended digest0 benignEnv schBad "app.db" ([] : FS) [] rfl rfl

end AutoSQLite

namespace AutoSQLite

/-! ### Claim C8 -/

/-- C8 counterexample: the deferred cleanup removes the lock file
unconditionally.  In the two-process interleaving model, process A unlocks,
process B acquires the advisory lock on the same path, then A's
unconditional `os.Remove` runs: the final state has the lock file gone
while B still holds the lock — exactly the hazard the claim says is
avoided.  A concrete failing `Migrate` run likewise carries the
unconditional removal in its trace. -/
theorem C8_counterexample :
    lockRun { lockFileExists := true, heldByA := true, heldByB := false }
        [LockStep.unlockA, LockStep.acquireB, LockStep.removeA] =
      some { lockFileExists := false, heldByA := false, heldByB := true } ∧
    FileOp.removed ("app.db" ++ ".migration.lock") ∈
      (Migrate digest0 envRF schT "app.db" [("app.db", dU)] []).2.2 :=
  ⟨rfl, by decide⟩

/-- C8 (amended): once the advisory lock is acquired, every exit path of
`Migrate` — success, schema error, I/O error — releases the lock and then
removes the lock file; the removal is unconditional (the deferred cleanup
always runs `os.Remove`), not guarded by this caller having been the last
holder. -/
theorem C8_lock_release_amended (digest : String → String) (env : Env) (s : Schema)
    (p : String) (fs : FS) (tr : List FileOp) (r : Except String Database) (fs' : FS)
    (tr' : List FileOp)
    (h : Migrate digest env s p fs tr = (r, fs', tr')) (hl : env.lockFails = false) :
    ∃ pre, tr' = pre ++ [FileOp.lockReleased (p ++ ".migration.lock"),
                         FileOp.removed (p ++ ".migration.lock")] := by
  simp only [Migrate] at h
  split at h
  · rename_i hlt
    rw [hl] at hlt
    exact absurd hlt (by simp)
  · rcases hml : migrateLocked digest env s p fs
        (tr ++ [FileOp.lockAcquired (p ++ ".migration.lock")]) with ⟨r₀, fs₀, tr₀⟩
    rw [hml] at h
    simp only [Prod.mk.injEq] at h
    rcases h with ⟨_, _, h3⟩
    exact ⟨tr₀, h3.symm⟩

/-- C8 witness: the amended theorem at a concrete migration run. -/
theorem C8_lock_release_amended_witness :
    ∃ pre, (Migrate digest0 benignEnv schT "app.db" [("app.db", dU)] []).2.2 =
      pre ++ [FileOp.lockReleased ("app.db" ++ ".migration.lock"),
              FileOp.removed ("app.db" ++ ".migration.lock")] :=
  C8_lock_release_amended digest0 benignEnv schT "app.db" [("app.db", dU)] []
    (Migrate digest0 benignEnv schT "app.db" [("app.db", dU)] []).1
    (Migrate digest0 benignEnv schT "app.db" [("app.db", dU)] []).2.1
    (Migrate digest0 benignEnv schT "app.db" [("app.db", dU)] []).2.2 rfl rfl

end AutoSQLite

namespace AutoSQLite

/-! ### Claim C1 -/

/-- An environment in which only the post-rename version recording fails. -/
def envRcF : Env :=
  ⟨false, false, false, true, "2024-01-01 00:00:00", fun _ => none⟩

/-- C1 counterexample, refuting both directions of the claim at concrete
runs.  First run: on an already-equivalent schema, `Migrate` returns
success without performing any cutover rename and without touching the
file — so success does not imply that the copy, rename and new lineage row
"have all completed".  Second run: when recording the lineage version fails
after the cutover rename, `Migrate` returns an error, yet the file at
`path` now holds the migrated database instead of its pre-call contents —
so an error return does not leave the file byte-identical. -/
theorem C1_counterexample :
    ((Migrate digest0 benignEnv schT "app.db" [("app.db", dbT1)] []).1 =
        Except.ok dbT1 ∧
      (Migrate digest0 benignEnv schT "app.db" [("app.db", dbT1)] []).2.1 =
        [("app.db", dbT1)] ∧
      FileOp.renamed ("app.db" ++ ".tmp") "app.db" ∉
        (Migrate digest0 benignEnv schT "app.db" [("app.db", dbT1)] []).2.2) ∧
    ((Migrate digest0 envRcF schT "app.db" [("app.db", dU)] []).1 =
        Except.error "failed to record schema version" ∧
      (Migrate digest0 envRcF schT "app.db" [("app.db", dU)] []).2.1.get "app.db" =
        some dT) :=
  ⟨⟨rfl, rfl, by decide⟩, ⟨rfl, rfl⟩⟩

/-- C1 (amended): for every `Migrate(schema, path)`: if it returns an error
and the cutover rename does not appear in its file-operation trace, the
file at `path` is unchanged (an error *after* the rename — the re-open /
record-version step — can leave the migrated file without the new lineage
row); if it returns success, either the live schema was already equivalent
(the call is a no-op on the filesystem), or the backup copy and the cutover
rename both completed, the schema text executed, and the returned database
— now stored at `path` — carries a newly recorded lineage row for the
candidate schema's hash. -/
theorem C1_migrate_atomicity_amended (digest : String → String) (env : Env)
    (s : Schema) (p : String) (fs : FS) (r : Except String Database) (fs' : FS)
    (tr' : List FileOp)
    (h : Migrate digest env s p fs [] = (r, fs', tr')) :
    (∀ e, r = Except.error e → FileOp.renamed (p ++ ".tmp") p ∉ tr' →
      fs'.get p = fs.get p) ∧
    (∀ db', r = Except.ok db' →
      (db' = (fs.get p).getD emptyDb ∧ fs' = fs) ∨
      (FileOp.copied p (p ++ ".backup") ∈ tr' ∧
        FileOp.renamed (p ++ ".tmp") p ∈ tr' ∧ s.result ≠ none ∧
        fs'.get p = some db' ∧
        hasLineageRow db' (calculateSchemaHash digest s.text))) := by
  simp only [Migrate] at h
  split at h
  · simp only [Prod.mk.injEq] at h
    rcases h with ⟨h1, h2, h3⟩
    constructor
    · intro e he hrn
      rw [← h2]
    · intro db' hdb
      rw [← h1] at hdb
      exact Except.noConfusion hdb
  · rcases hml : migrateLocked digest env s p fs
        ([] ++ [FileOp.lockAcquired (p ++ ".migration.lock")]) with ⟨r₀, fs₀, tr₀⟩
    rw [hml] at h
    simp only [Prod.mk.injEq] at h
    rcases h with ⟨h1, h2, h3⟩
    constructor
    · intro e he hrn
      rw [h1, he] at hml
      rw [← h2]
      refine migrateLocked_error_nocutover hml (fun hmem => hrn ?_)
      rw [← h3]
      exact List.mem_append.mpr (Or.inl hmem)
    · intro db' hdb
      rw [h1, hdb] at hml
      rcases migrateLocked_ok_cutover hml with ⟨ha, hb, _⟩ | ⟨hc, hr2, hres, hgp, hlin⟩
      · refine Or.inl ⟨ha, ?_⟩
        rw [← h2, hb]
      · refine Or.inr ⟨?_, ?_, hres, ?_, hlin⟩
        · rw [← h3]
          exact List.mem_append.mpr (Or.inl hc)
        · rw [← h3]
          exact List.mem_append.mpr (Or.inl hr2)
        · rw [← h2]
          exact hgp

/-- C1 witness: the amended theorem's success case at a concrete full
migration, which lands in the cutover branch. -/
theorem C1_migrate_atomicity_amended_witness :
    (dbT1 = ((FS.get [("app.db", dU)] "app.db").getD emptyDb) ∧
      (Migrate digest0 benignEnv schT "app.db" [("app.db", dU)] []).2.1 =
        [("app.db", dU)]) ∨
    (FileOp.copied "app.db" ("app.db" ++ ".backup") ∈
        (Migrate digest0 benignEnv schT "app.db" [("app.db", dU)] []).2.2 ∧
      FileOp.renamed ("app.db" ++ ".tmp") "app.db" ∈
        (Migrate digest0 benignEnv schT "app.db" [("app.db", dU)] []).2.2 ∧
      schT.result ≠ none ∧
      (Migrate digest0 benignEnv schT "app.db" [("app.db", dU)] []).2.1.get "app.db" =
        some dbT1 ∧
      hasLineageRow dbT1 (calculateSchemaHash digest0 schT.text)) :=
  (C1_migrate_atomicity_amended digest0 benignEnv schT "app.db" [("app.db", dU)]
    (Migrate digest0 benignEnv schT "app.db" [("app.db", dU)] []).1
    (Migrate digest0 benignEnv schT "app.db" [("app.db", dU)] []).2.1
    (Migrate digest0 benignEnv schT "app.db" [("app.db", dU)] []).2.2 rfl).2 dbT1 rfl

end AutoSQLite
